import Mathlib

/-!
Verification of the zdns DNS proxy against its specification.

The definitions below are a shallow embedding of the Go sources:

* the DNS message model and `MinTTL`/`Answers` helpers embed
  `dns/dnsutil/dnsutil.go` (messages from the miekg/dns library are
  modelled by the fields this repository reads and writes; wire
  encoding is modelled without compression, which is the library's
  default),
* the message cache (`Value`, `Pack`/`Unpack`, `NewKey`, `setValue`,
  `getValue`, `refresh`, `load`, `canCache`, `isExpired`) embeds the
  `cache` package,
* the proxy (`proxyReply`, `serveDNS`) embeds `dns/proxy.go`'s
  `Proxy.reply` and `Proxy.ServeDNS`,
* the hosts parser embeds `hosts/hosts.go`,
* the SQL log store and logger embed `sql/sql.go` and `sql/logger.go`
  (the SQLite tables are modelled as lists with max-plus-one row ids,
  which is SQLite's INTEGER PRIMARY KEY behaviour).

Go machine integers are modelled as `Nat` with explicit `% 2 ^ 32`
where overflow can occur (the FNV-1a hash); `time.Time` instants and
`time.Duration` values are modelled as `Int` nanoseconds.
-/

namespace Zdns

/-! ## DNS data model -/

/-- A DNS question (miekg/dns `Question`): name, query type, query class. -/
structure Question where
  name : String
  qtype : Nat
  qclass : Nat
  deriving DecidableEq, Repr

/-- A DNS resource record, reduced to the header fields this repository
reads (name, type, class, TTL) plus raw RDATA bytes. -/
structure RR where
  name : String
  rtype : Nat
  rclass : Nat
  ttl : Nat
  rdata : List Nat
  deriving DecidableEq, Repr

/-- A DNS message, reduced to the fields the repository reads and
writes: id, response flag, recursion flags, response code, and the four
record sections. -/
structure Msg where
  id : Nat := 0
  response : Bool := false
  recursionDesired : Bool := false
  recursionAvailable : Bool := false
  rcode : Nat := 0
  question : List Question := []
  answer : List RR := []
  ns : List RR := []
  extra : List RR := []
  deriving DecidableEq, Repr

/-- Rrtype of the EDNS OPT pseudo-record (`dns.TypeOPT`). -/
def typeOPT : Nat := 41

/-- `dns.RcodeSuccess` (NOERROR). -/
def rcodeSuccess : Nat := 0

/-- `dns.RcodeNameError` (NXDOMAIN). -/
def rcodeNameError : Nat := 3

/-- `dns.RcodeServerFailure` (SERVFAIL). -/
def rcodeServerFailure : Nat := 2

/-- Nanoseconds per second (`time.Second`). -/
def nsPerSec : Int := 1000000000

/-- Maximum TTL from RFC 2181, the fold seed in `dnsutil.MinTTL`. -/
def maxTTL : Nat := 2 ^ 31 - 1

/-- Embeds `dnsutil.MinTTL` up to the final conversion to a duration:
the minimum TTL in seconds over the answer, authority and additional
sections, where OPT pseudo-records are skipped in the additional
section only. -/
def minTTLSecs (m : Msg) : Nat :=
  let t1 := m.answer.foldl (fun acc rr => Nat.min rr.ttl acc) maxTTL
  let t2 := m.ns.foldl (fun acc rr => Nat.min rr.ttl acc) t1
  m.extra.foldl
    (fun acc rr => if rr.rtype = typeOPT then acc else Nat.min rr.ttl acc) t2

/-- `dnsutil.MinTTL`: the minimum TTL as a `time.Duration` (nanoseconds). -/
def minTTL (m : Msg) : Int := (minTTLSecs m : Int) * nsPerSec

/-! ## Cache keys (`cache.NewKey`) -/

/-- One step of FNV-1a over 32 bits: xor the byte in, multiply by the
FNV prime, reduce modulo `2 ^ 32`. -/
def fnv32aStep (h b : Nat) : Nat := ((h ^^^ b) * 16777619) % 2 ^ 32

/-- 32-bit FNV-1a digest of a byte sequence (`hash/fnv` `New32a`). -/
def fnv32a (bytes : List Nat) : Nat := bytes.foldl fnv32aStep 2166136261

/-- Bytes of a Go string (UTF-8; the names hashed here are ASCII). -/
def strBytes (s : String) : List Nat := s.toList.map Char.toNat

/-- Big-endian bytes of a 16-bit value (`binary.Write` big-endian). -/
def be16 (v : Nat) : List Nat := [v / 256 % 256, v % 256]

/-- Embeds `cache.NewKey`: the 32-bit FNV-1a digest of the name bytes
followed by the big-endian query type and query class. -/
def NewKey (name : String) (qtype qclass : Nat) : Nat :=
  fnv32a (strBytes name ++ be16 qtype ++ be16 qclass)

/-- ASCII lowercasing of one character (what `strings.ToLower` does on
the ASCII names involved here). -/
def lowerChar (c : Char) : Char :=
  if 65 ≤ c.toNat ∧ c.toNat ≤ 90 then Char.ofNat (c.toNat + 32) else c

/-- Spec-side key function, written from the specification's words
("a 32-bit FNV-1a over lowercased name || big-endian qtype || big-endian
qclass"), for comparison with the source's `NewKey`. -/
def NewKeySpec (name : String) (qtype qclass : Nat) : Nat :=
  fnv32a ((name.toList.map lowerChar).map Char.toNat
    ++ be16 qtype ++ be16 qclass)

/-! ## Cache state and operations (`cache` package) -/

/-- A cached entry (`cache.Value`): key, creation instant in
nanoseconds, and the stored message. -/
structure Value where
  Key : Nat
  CreatedAt : Int
  msg : Msg
  deriving DecidableEq, Repr

/-- Lookup in the model of Go's `map[uint32]Value`. -/
def mlookup (l : List (Nat × Value)) (k : Nat) : Option Value :=
  match l with
  | [] => none
  | (k', v) :: rest => if k' = k then some v else mlookup rest k

/-- `values[k] = v` on the map model: replace the binding if the key is
present, otherwise add it. -/
def minsert (l : List (Nat × Value)) (k : Nat) (v : Value) :
    List (Nat × Value) :=
  match l with
  | [] => [(k, v)]
  | (k', v') :: rest =>
      if k' = k then (k, v) :: rest else (k', v') :: minsert rest k v

/-- `delete(values, k)` on the map model. -/
def merase (l : List (Nat × Value)) (k : Nat) : List (Nat × Value) :=
  l.filter (fun e => e.1 != k)

/-- A call the cache issues to its persistent backend. -/
inductive BOp where
  | set (key : Nat) (v : Value)
  | evict (key : Nat)
  | reset
  deriving DecidableEq, Repr

/-- A task placed on the cache's background queue by `getValue`. -/
inductive Task where
  | evictTask (key : Nat)
  | refreshTask (key : Nat) (old : Msg)
  deriving DecidableEq, Repr

/-- The mutable state of a `cache.Cache`: capacity, the key-value map,
the insertion-order key list, whether a prefetch client is configured
(`client != nil`) and whether a backend is attached. -/
structure CacheState where
  capacity : Nat
  values : List (Nat × Value)
  keys : List Nat
  prefetch : Bool
  hasBackend : Bool
  deriving DecidableEq, Repr

/-- Embeds `Cache.canCache`: never cache a message whose minimum TTL is
zero or whose rcode is neither NOERROR nor NXDOMAIN. -/
def canCache (m : Msg) : Bool :=
  if minTTL m = 0 then false
  else m.rcode == rcodeSuccess || m.rcode == rcodeNameError

/-- Embeds `Cache.isExpired`: the current time is strictly after
`CreatedAt + MinTTL(msg)`. -/
def isExpired (now : Int) (v : Value) : Bool :=
  v.CreatedAt + minTTL v.msg < now

/-- Embeds `Cache.removeKey`: drop every occurrence of the key from the
insertion-order list. -/
def removeKey (keys : List Nat) (k : Nat) : List Nat :=
  keys.filter (fun x => x != k)

/-- Embeds `Cache.appendKey`: move the key to the most-recent position. -/
def appendKey (keys : List Nat) (k : Nat) : List Nat :=
  removeKey keys k ++ [k]

/-- The at-capacity block of `Cache.setValue`: when the map is full,
evict the entry at the front of the insertion-order list and forward the
eviction to the backend. The `keys = []` branch of the full case is
unreachable in the program (the map and the key list always have the
same size) and Go would panic indexing `keys[0]` there. -/
def setEvictStep (st : CacheState) : CacheState × List BOp :=
  if st.values.length = st.capacity ∧ 0 < st.capacity then
    match st.keys with
    | [] => (st, [])
    | k0 :: rest =>
        ({ st with values := merase st.values k0, keys := rest },
         if st.hasBackend then [BOp.evict k0] else [])
  else (st, [])

/-- Embeds `Cache.setValue`. Returns the new state, the backend calls
issued, and the `bool` result. -/
def setValue (st : CacheState) (v : Value) : CacheState × List BOp × Bool :=
  if st.capacity = 0 ∨ canCache v.msg = false then (st, [], false)
  else
    let step := setEvictStep st
    let st2 := { step.1 with
                 values := minsert step.1.values v.Key v
                 keys := appendKey step.1.keys v.Key }
    (st2, step.2 ++ (if st.hasBackend then [BOp.set v.Key v] else []), true)

/-- Embeds `Cache.set`: build the `Value` with the current time and call
`setValue`. -/
def cacheSet (st : CacheState) (now : Int) (key : Nat) (m : Msg) :
    CacheState × List BOp × Bool :=
  setValue st { Key := key, CreatedAt := now, msg := m }

/-- Embeds `Cache.evict`: remove from the map and the key list, and
forward to the backend if present. -/
def cacheEvict (st : CacheState) (key : Nat) : CacheState × List BOp :=
  ({ st with values := merase st.values key, keys := removeKey st.keys key },
   if st.hasBackend then [BOp.evict key] else [])

/-- Embeds `Cache.getValue`: a map miss is a miss; an unexpired entry is
a hit; an expired entry is a hit plus a queued refresh when a prefetch
client is configured, and a miss plus a queued eviction otherwise. -/
def getValue (st : CacheState) (now : Int) (key : Nat) :
    Option Value × Option Task :=
  match mlookup st.values key with
  | none => (none, none)
  | some v =>
      if isExpired now v then
        if st.prefetch = false then (none, some (Task.evictTask key))
        else (some v, some (Task.refreshTask key v.msg))
      else (some v, none)

/-- Embeds `Cache.refresh` with the upstream exchange's outcome passed
in (`none` models an exchange error). The result is `none` when the
stored message has no question, where Go panics on `old.Question[0]`. -/
def cacheRefresh (st : CacheState) (now : Int) (key : Nat) (old : Msg)
    (exch : Option Msg) : Option (CacheState × List BOp) :=
  match old.question with
  | [] => none
  | _ :: _ =>
      some <| match exch with
      | none => (st, [])
      | some r =>
          let s := cacheSet st now key r
          if s.2.2 then (s.1, s.2.1)
          else
            let e := cacheEvict s.1 key
            (e.1, s.2.1 ++ e.2)

/-- Embeds `Cache.Reset`. -/
def cacheReset (st : CacheState) : CacheState × List BOp :=
  ({ st with values := [], keys := [] },
   if st.hasBackend then [BOp.reset] else [])

/-- The persistent backend's store, in insertion (read) order; embeds
the SQL `cache` table, whose `key` column is unique and whose rows are
read back ordered by the autoincrement id. -/
structure BackendStore where
  entries : List Value
  deriving DecidableEq, Repr

/-- Backend `Evict`: delete the row with the given key. -/
def backendEvict (b : BackendStore) (key : Nat) : BackendStore :=
  ⟨b.entries.filter (fun v => v.Key != key)⟩

/-- Backend `Set`: delete the row with the key, then insert at the end. -/
def backendSet (b : BackendStore) (v : Value) : BackendStore :=
  ⟨(b.entries.filter (fun w => w.Key != v.Key)) ++ [v]⟩

/-- Apply one issued backend call to the store. -/
def backendApply (b : BackendStore) : BOp → BackendStore
  | BOp.set _ v => backendSet b v
  | BOp.evict k => backendEvict b k
  | BOp.reset => ⟨[]⟩

/-- Apply a sequence of issued backend calls to the store. -/
def backendRun (b : BackendStore) (ops : List BOp) : BackendStore :=
  ops.foldl backendApply b

/-- A fresh cache with no entries (`newCache` before `load`). -/
def newCacheState (capacity : Nat) (prefetch : Bool) : CacheState :=
  { capacity := capacity, values := [], keys := [],
    prefetch := prefetch, hasBackend := false }

/-- Install backend values via `setValue` (the loop in `Cache.load`;
`c.backend` is still nil during this loop, so no backend calls are
issued by these inserts). -/
def loadValues (st : CacheState) (vals : List Value) : CacheState :=
  vals.foldl (fun s v => (setValue s v).1) st

/-- Embeds `newCache` with a backend (`Cache.load`). Returns the cache
state, the backend store after the calls `load` issued, and the list of
keys for which `backend.Evict` was called. With capacity 0 the backend
is reset and `c.backend` is never assigned. -/
def cacheLoad (capacity : Nat) (prefetch : Bool) (b : BackendStore) :
    CacheState × BackendStore × List Nat :=
  if capacity = 0 then (newCacheState 0 prefetch, ⟨[]⟩, [])
  else
    let values := b.entries
    let n := if capacity < values.length then capacity else 0
    let c1 := loadValues (newCacheState capacity prefetch) (values.drop n)
    let evicted :=
      if capacity < values.length then (values.take n).map (·.Key) else []
    let b1 := evicted.foldl backendEvict b
    ({ c1 with hasBackend := true }, b1, evicted)

/-- One externally triggered cache transition: a `Set`, a `Get` together
with the execution of the background task it queued (the task's
upstream-exchange outcome is a parameter), or a `Reset`. -/
inductive CacheOp where
  | opSet (now : Int) (key : Nat) (m : Msg)
  | opGet (now : Int) (key : Nat) (exch : Option Msg) (now2 : Int)
  | opReset
  deriving Repr

/-- Apply one `CacheOp` to the state (backend calls are dropped here; a
refresh that would panic leaves the state unchanged). -/
def cacheApplyOp (st : CacheState) : CacheOp → CacheState
  | CacheOp.opSet now k m => (cacheSet st now k m).1
  | CacheOp.opGet now k exch now2 =>
      match (getValue st now k).2 with
      | none => st
      | some (Task.evictTask k') => (cacheEvict st k').1
      | some (Task.refreshTask k' old) =>
          match cacheRefresh st now2 k' old exch with
          | none => st
          | some s => s.1
  | CacheOp.opReset => (cacheReset st).1

/-- Run a sequence of cache operations. -/
def cacheRun (init : CacheState) (ops : List CacheOp) : CacheState :=
  ops.foldl cacheApplyOp init

/-! ## Map-model lemmas -/

theorem mlookup_minsert_self (l : List (Nat × Value)) (k : Nat) (v : Value) :
    mlookup (minsert l k v) k = some v := by
  induction l with
  | nil => simp [minsert, mlookup]
  | cons e rest ih =>
      obtain ⟨k', v'⟩ := e
      by_cases h : k' = k <;> simp [minsert, mlookup, h, ih]

theorem mlookup_minsert_ne (l : List (Nat × Value)) (k k' : Nat) (v : Value)
    (h : k' ≠ k) : mlookup (minsert l k v) k' = mlookup l k' := by
  induction l with
  | nil => simp [minsert, mlookup, Ne.symm h]
  | cons e rest ih =>
      obtain ⟨k0, v0⟩ := e
      by_cases h0 : k0 = k
      · subst h0
        simp [minsert, mlookup, Ne.symm h, fun hk => h (Eq.symm hk)]
      · simp only [minsert, if_neg h0, mlookup]
        by_cases h1 : k0 = k' <;> simp [h1, ih]

theorem mlookup_merase_self (l : List (Nat × Value)) (k : Nat) :
    mlookup (merase l k) k = none := by
  induction l with
  | nil => simp [merase, mlookup]
  | cons e rest ih =>
      obtain ⟨k0, v0⟩ := e
      by_cases h0 : k0 = k
      · subst h0
        simp [merase, mlookup, List.filter_cons] at ih ⊢
        exact ih
      · have hb : ((k0, v0).1 != k) = true := by
          simpa using h0
        simp only [merase, List.filter_cons, hb, if_pos]
        simpa [mlookup, h0] using ih

theorem mlookup_merase_ne (l : List (Nat × Value)) (k k' : Nat)
    (h : k' ≠ k) : mlookup (merase l k) k' = mlookup l k' := by
  induction l with
  | nil => simp [merase, mlookup]
  | cons e rest ih =>
      obtain ⟨k0, v0⟩ := e
      by_cases h0 : k0 = k
      · subst h0
        have : k0 ≠ k' := fun hk => h (Eq.symm hk)
        simpa [merase, mlookup, List.filter_cons, this] using ih
      · have hb : ((k0, v0).1 != k) = true := by
          simp [h0]
        simp only [merase, List.filter_cons, hb, if_pos]
        by_cases h1 : k0 = k'
        · simp only [mlookup, if_pos h1]
        · simp only [mlookup, if_neg h1]
          exact ih

theorem mlookup_mem (l : List (Nat × Value)) (k : Nat) (v : Value)
    (h : mlookup l k = some v) : (k, v) ∈ l := by
  induction l with
  | nil => simp [mlookup] at h
  | cons e rest ih =>
      obtain ⟨k0, v0⟩ := e
      by_cases h0 : k0 = k
      · subst h0
        simp [mlookup] at h
        simp [h]
      · simp [mlookup, h0] at h
        exact List.mem_cons_of_mem _ (ih h)

theorem mem_minsert (l : List (Nat × Value)) (k : Nat) (v : Value) (e : Nat × Value)
    (h : e ∈ minsert l k v) : e ∈ l ∨ e = (k, v) := by
  induction l with
  | nil => simp [minsert] at h; simp [h]
  | cons e0 rest ih =>
      obtain ⟨k0, v0⟩ := e0
      by_cases h0 : k0 = k
      · subst h0
        simp [minsert] at h
        rcases h with h | h
        · right; simp [h]
        · left; exact List.mem_cons_of_mem _ h
      · simp [minsert, h0] at h
        rcases h with h | h
        · left; simp [h]
        · rcases ih h with h' | h'
          · left; exact List.mem_cons_of_mem _ h'
          · right; exact h'

theorem mem_merase (l : List (Nat × Value)) (k : Nat) (e : Nat × Value)
    (h : e ∈ merase l k) : e ∈ l :=
  List.mem_of_mem_filter h

theorem mlookup_some_length_pos (l : List (Nat × Value)) (k : Nat) (v : Value)
    (h : mlookup l k = some v) : 0 < l.length := by
  cases l with
  | nil => simp [mlookup] at h
  | cons e rest => simp

/-! ## Cache invariant: only cacheable messages are ever stored -/

theorem canCache_true_iff (m : Msg) :
    canCache m = true ↔
      minTTL m ≠ 0 ∧ (m.rcode = rcodeSuccess ∨ m.rcode = rcodeNameError) := by
  unfold canCache
  by_cases h : minTTL m = 0 <;> simp [h]

theorem setEvictStep_lookup (st : CacheState) (k : Nat) (w : Value)
    (h : mlookup (setEvictStep st).1.values k = some w) :
    mlookup st.values k = some w := by
  unfold setEvictStep at h
  split at h
  · rcases hk : st.keys with _ | ⟨k0, rest⟩ <;> rw [hk] at h
    · exact h
    · simp only at h
      by_cases hk0 : k = k0
      · subst hk0
        rw [mlookup_merase_self] at h
        cases h
      · rwa [mlookup_merase_ne _ _ _ hk0] at h
  · exact h

theorem setValue_lookup_cases (st : CacheState) (v : Value) (k : Nat) (w : Value)
    (h : mlookup (setValue st v).1.values k = some w) :
    (w = v ∧ canCache v.msg = true) ∨ mlookup st.values k = some w := by
  unfold setValue at h
  split at h
  · right; exact h
  · rename_i hg
    push_neg at hg
    have hcc : canCache v.msg = true := by
      have := hg.2
      simpa using this
    simp only at h
    by_cases hk : k = v.Key
    · subst hk
      rw [mlookup_minsert_self] at h
      exact Or.inl ⟨(Option.some.injEq _ _ ▸ h).symm, hcc⟩
    · rw [mlookup_minsert_ne _ _ _ _ hk] at h
      exact Or.inr (setEvictStep_lookup st k w h)

/-- The key safety property of the cache: every stored message is
cacheable. -/
def goodEntries (st : CacheState) : Prop :=
  ∀ k v, mlookup st.values k = some v → canCache v.msg = true

theorem goodEntries_setValue (st : CacheState) (v : Value)
    (h : goodEntries st) : goodEntries (setValue st v).1 := by
  intro k w hw
  rcases setValue_lookup_cases st v k w hw with ⟨rfl, hc⟩ | ho
  · exact hc
  · exact h k w ho

theorem goodEntries_cacheEvict (st : CacheState) (key : Nat)
    (h : goodEntries st) : goodEntries (cacheEvict st key).1 := by
  intro k w hw
  unfold cacheEvict at hw
  simp only at hw
  by_cases hk : k = key
  · subst hk
    rw [mlookup_merase_self] at hw
    cases hw
  · rw [mlookup_merase_ne _ _ _ hk] at hw
    exact h k w hw

theorem goodEntries_refresh (st : CacheState) (now2 : Int) (k' : Nat)
    (old : Msg) (exch : Option Msg) (s : CacheState × List BOp)
    (h : goodEntries st) (hr : cacheRefresh st now2 k' old exch = some s) :
    goodEntries s.1 := by
  unfold cacheRefresh at hr
  rcases hq : old.question with _ | ⟨q0, qs⟩ <;> rw [hq] at hr
  · cases hr
  · simp only [Option.some.injEq] at hr
    rcases exch with _ | r
    · rw [← hr]; exact h
    · rw [← hr]
      dsimp only
      by_cases hins : (cacheSet st now2 k' r).2.2 = true
      · simp only [hins, if_true]
        exact goodEntries_setValue st _ h
      · rw [Bool.not_eq_true] at hins
        simp only [hins, Bool.false_eq_true, if_false]
        exact goodEntries_cacheEvict _ _ (goodEntries_setValue st _ h)

theorem goodEntries_applyOp (st : CacheState) (op : CacheOp)
    (h : goodEntries st) : goodEntries (cacheApplyOp st op) := by
  cases op with
  | opSet now k m => exact goodEntries_setValue st _ h
  | opReset =>
      intro k w hw
      simp [cacheApplyOp, cacheReset, mlookup] at hw
  | opGet now k exch now2 =>
      rcases hg : (getValue st now k).2 with _ | t
      · simpa [cacheApplyOp, hg] using h
      · cases t with
        | evictTask k' =>
            simpa [cacheApplyOp, hg] using goodEntries_cacheEvict st k' h
        | refreshTask k' old =>
            rcases hr : cacheRefresh st now2 k' old exch with _ | s
            · simpa [cacheApplyOp, hg, hr] using h
            · simpa [cacheApplyOp, hg, hr] using
                goodEntries_refresh st now2 k' old exch s h hr

theorem goodEntries_run (init : CacheState) (ops : List CacheOp)
    (h : goodEntries init) : goodEntries (cacheRun init ops) := by
  induction ops generalizing init with
  | nil => exact h
  | cons op rest ih => exact ih _ (goodEntries_applyOp init op h)

theorem goodEntries_loadValues (st : CacheState) (vals : List Value)
    (h : goodEntries st) : goodEntries (loadValues st vals) := by
  induction vals generalizing st with
  | nil => exact h
  | cons v rest ih => exact ih _ (goodEntries_setValue st v h)

theorem goodEntries_newCacheState (capacity : Nat) (prefetch : Bool) :
    goodEntries (newCacheState capacity prefetch) := by
  intro k v hv
  simp [newCacheState, mlookup] at hv

theorem goodEntries_cacheLoad (capacity : Nat) (prefetch : Bool)
    (b : BackendStore) : goodEntries (cacheLoad capacity prefetch b).1 := by
  unfold cacheLoad
  split
  · exact goodEntries_newCacheState 0 prefetch
  · intro k v hv
    exact goodEntries_loadValues _ _
      (goodEntries_newCacheState capacity prefetch) k v hv

/-! ## Claim C2 -/

/-- C2: for every key and DNS message whose minimum TTL is zero or whose
rcode is neither NOERROR nor NXDOMAIN, `Set` leaves the cache state and
the backend completely unchanged (no backend call is issued and the
insert flag is false); consequently every entry of every cache state
reachable from a freshly constructed cache (with any capacity, prefetch
client and backend contents) has a nonzero minimum TTL and an rcode in
{NOERROR, NXDOMAIN}. -/
theorem C2_set_noop_and_invariant (st : CacheState) (now : Int) (k : Nat)
    (m : Msg)
    (h : minTTL m = 0 ∨ (m.rcode ≠ rcodeSuccess ∧ m.rcode ≠ rcodeNameError)) :
    cacheSet st now k m = (st, [], false) ∧
    ∀ (capacity : Nat) (prefetch : Bool) (b : BackendStore)
      (ops : List CacheOp) (k' : Nat) (v : Value),
      mlookup (cacheRun (cacheLoad capacity prefetch b).1 ops).values k'
          = some v →
      minTTL v.msg ≠ 0 ∧
        (v.msg.rcode = rcodeSuccess ∨ v.msg.rcode = rcodeNameError) := by
  constructor
  · have hcc : canCache m = false := by
      rcases h with h | ⟨h1, h2⟩
      · simp [canCache, h]
      · unfold canCache
        split
        · rfl
        · simp [h1, h2]
    unfold cacheSet setValue
    rw [if_pos (Or.inr hcc)]
  · intro capacity prefetch b ops k' v hv
    have := goodEntries_run _ ops (goodEntries_cacheLoad capacity prefetch b)
      k' v hv
    exact (canCache_true_iff v.msg).1 this

/-- Message used in witnesses: a NOERROR answer for `w.` with TTL 60. -/
def wOkMsg : Msg :=
  { question := [{ name := "w.", qtype := 1, qclass := 1 }],
    answer := [{ name := "w.", rtype := 1, rclass := 1, ttl := 60,
                 rdata := [192, 0, 2, 1] }] }

/-- Message used in witnesses: a SERVFAIL reply, which is not cacheable. -/
def wFailMsg : Msg :=
  { rcode := 2,
    question := [{ name := "w.", qtype := 1, qclass := 1 }],
    answer := [{ name := "w.", rtype := 1, rclass := 1, ttl := 60,
                 rdata := [192, 0, 2, 1] }] }

theorem C2_witness :
    (minTTL wFailMsg = 0 ∨
      (wFailMsg.rcode ≠ rcodeSuccess ∧ wFailMsg.rcode ≠ rcodeNameError)) ∧
    cacheSet (newCacheState 4 false) 7 9 wFailMsg
      = (newCacheState 4 false, [], false) :=
  ⟨by decide,
   (C2_set_noop_and_invariant (newCacheState 4 false) 7 9 wFailMsg
      (by decide)).1⟩

/-! ## Claim C3 -/

/-- C3: for a cache state containing an entry for `k` that is expired at
the current time, `getValue` returns the stale entry as a hit and queues
a refresh task when a prefetch client is configured, and returns a miss
and queues an eviction otherwise; a queued refresh whose exchange
succeeds replaces the entry with a fresh `CreatedAt`, or evicts `k` when
the refreshed reply is not cacheable; an unexpired entry is returned as
a hit with no queued task. -/
theorem C3_expiry_prefetch (st : CacheState) (now now2 : Int) (k : Nat)
    (v : Value) (hv : mlookup st.values k = some v)
    (hcap : 0 < st.capacity) :
    (isExpired now v = true → st.prefetch = true →
        getValue st now k = (some v, some (Task.refreshTask k v.msg)) ∧
        ∀ (r : Msg) (res : CacheState × List BOp),
          cacheRefresh st now2 k v.msg (some r) = some res →
          (canCache r = true →
            mlookup res.1.values k
              = some { Key := k, CreatedAt := now2, msg := r }) ∧
          (canCache r = false → mlookup res.1.values k = none)) ∧
    (isExpired now v = true → st.prefetch = false →
        getValue st now k = (none, some (Task.evictTask k)) ∧
        mlookup (cacheEvict st k).1.values k = none) ∧
    (isExpired now v = false → getValue st now k = (some v, none)) := by
  refine ⟨?_, ?_, ?_⟩
  · intro hexp hpre
    constructor
    · simp [getValue, hv, hexp, hpre]
    · intro r res hres
      unfold cacheRefresh at hres
      rcases hq : v.msg.question with _ | ⟨q0, qs⟩ <;> rw [hq] at hres
      · cases hres
      · simp only [Option.some.injEq] at hres
        constructor
        · intro hcc
          have hgne : ¬ (st.capacity = 0 ∨
              canCache ({ Key := k, CreatedAt := now2, msg := r } : Value).msg
                = false) := by
            push_neg
            refine ⟨by omega, ?_⟩
            simp [hcc]
          have hins : (cacheSet st now2 k r).2.2 = true := by
            unfold cacheSet setValue
            rw [if_neg hgne]
          rw [← hres]
          simp only [hins, if_true]
          unfold cacheSet setValue
          rw [if_neg hgne]
          exact mlookup_minsert_self _ k _
        · intro hcc
          have hset : cacheSet st now2 k r = (st, [], false) := by
            unfold cacheSet setValue
            rw [if_pos (Or.inr hcc)]
          rw [← hres]
          rw [hset]
          simp only [Bool.false_eq_true, if_false]
          exact mlookup_merase_self _ k
  · intro hexp hpre
    refine ⟨?_, mlookup_merase_self _ k⟩
    simp [getValue, hv, hexp, hpre]
  · intro hexp
    simp [getValue, hv, hexp]

/-- Cache state used in the C3 witness: one entry for key 5, created at
time 0, prefetch enabled. -/
def c3State : CacheState :=
  { capacity := 2,
    values := [(5, { Key := 5, CreatedAt := 0, msg := wOkMsg })],
    keys := [5], prefetch := true, hasBackend := false }

theorem C3_witness :
    mlookup c3State.values 5
        = some { Key := 5, CreatedAt := 0, msg := wOkMsg } ∧
    0 < c3State.capacity ∧
    isExpired (100 * nsPerSec) { Key := 5, CreatedAt := 0, msg := wOkMsg }
        = true ∧
    getValue c3State (100 * nsPerSec) 5
      = (some { Key := 5, CreatedAt := 0, msg := wOkMsg },
         some (Task.refreshTask 5 wOkMsg)) :=
  ⟨by decide, by decide, by decide,
   (((C3_expiry_prefetch c3State (100 * nsPerSec) (200 * nsPerSec) 5
        { Key := 5, CreatedAt := 0, msg := wOkMsg }
        (by decide) (by decide)).1 (by decide) (by decide)).1)⟩

/-! ## Claim C4 -/

/-- Messages used in the C4 counterexample. -/
def c4m (i : Nat) : Msg :=
  { question := [{ name := "h.", qtype := 1, qclass := 1 }],
    answer := [{ name := "h.", rtype := 1, rclass := 1, ttl := 60,
                 rdata := [192, 0, 2, i] }] }

/-- Cache of capacity 2, filled to capacity with keys 1 and 2 by two
public `Set` calls. -/
def c4State : CacheState :=
  cacheRun (newCacheState 2 false)
    [CacheOp.opSet 0 1 (c4m 1), CacheOp.opSet 0 2 (c4m 2)]

/-- C4 counterexample: at full capacity, `Set` on the already present
key 2 evicts the entry for key 1, contradicting the claim that an
in-place update leaves every other cached entry present. -/
theorem C4_counterexample :
    mlookup c4State.values 1 = some { Key := 1, CreatedAt := 0, msg := c4m 1 } ∧
    c4State.values.length = c4State.capacity ∧
    mlookup c4State.values 2 = some { Key := 2, CreatedAt := 0, msg := c4m 2 } ∧
    canCache (c4m 3) = true ∧
    mlookup ((cacheSet c4State 5 2 (c4m 3)).1).values 1 = none := by
  decide

/-- C4 (amended): `Set` on an existing key updates the entry in place
and moves the key to the most-recent position; every other entry is
left untouched (and no eviction happens) when the cache is strictly
below capacity, but when the map is full `Set` first evicts the entry
at the front of the insertion-order list even though the key is only
being updated, so an update of a non-oldest key at full capacity also
removes the oldest entry. -/
theorem C4_amended (st : CacheState) (now : Int) (k : Nat) (v : Value)
    (m : Msg) (hv : mlookup st.values k = some v) (hm : canCache m = true) :
    (st.values.length < st.capacity →
        mlookup (cacheSet st now k m).1.values k
            = some { Key := k, CreatedAt := now, msg := m } ∧
        (∀ k', k' ≠ k →
          mlookup (cacheSet st now k m).1.values k' = mlookup st.values k') ∧
        (cacheSet st now k m).1.keys = removeKey st.keys k ++ [k] ∧
        (cacheSet st now k m).2.1 =
          (if st.hasBackend
            then [BOp.set k { Key := k, CreatedAt := now, msg := m }]
            else [])) ∧
    (st.values.length = st.capacity →
        ∀ k0 rest, st.keys = k0 :: rest →
        mlookup (cacheSet st now k m).1.values k
            = some { Key := k, CreatedAt := now, msg := m } ∧
        (k0 ≠ k → mlookup (cacheSet st now k m).1.values k0 = none) ∧
        (∀ k', k' ≠ k → k' ≠ k0 →
          mlookup (cacheSet st now k m).1.values k' = mlookup st.values k')) := by
  have hpos : 0 < st.values.length := mlookup_some_length_pos _ _ _ hv
  constructor
  · intro hlt
    have hcap : st.capacity ≠ 0 := by omega
    have hstep : setEvictStep st = (st, []) := by
      unfold setEvictStep
      rw [if_neg]
      intro ⟨h1, _⟩
      omega
    unfold cacheSet setValue
    rw [if_neg (by push_neg; exact ⟨hcap, by simp [hm]⟩)]
    simp only [hstep]
    refine ⟨mlookup_minsert_self _ _ _, ?_, rfl, rfl⟩
    intro k' hk'
    exact mlookup_minsert_ne _ _ _ _ hk'
  · intro heq k0 rest hkeys
    have hcap : st.capacity ≠ 0 := by omega
    have hstep : setEvictStep st =
        ({ st with values := merase st.values k0, keys := rest },
         if st.hasBackend then [BOp.evict k0] else []) := by
      unfold setEvictStep
      rw [if_pos ⟨heq, by omega⟩, hkeys]
    unfold cacheSet setValue
    rw [if_neg (by push_neg; exact ⟨hcap, by simp [hm]⟩)]
    simp only [hstep]
    refine ⟨mlookup_minsert_self _ _ _, ?_, ?_⟩
    · intro hk0
      rw [mlookup_minsert_ne _ _ _ _ hk0]
      exact mlookup_merase_self _ _
    · intro k' hk' hk0'
      rw [mlookup_minsert_ne _ _ _ _ hk']
      exact mlookup_merase_ne _ _ _ hk0'

/-- Below-capacity state used in the C4 witness. -/
def c4wState : CacheState :=
  { capacity := 3,
    values := [(1, { Key := 1, CreatedAt := 0, msg := c4m 1 }),
               (2, { Key := 2, CreatedAt := 0, msg := c4m 2 })],
    keys := [1, 2], prefetch := false, hasBackend := false }

theorem C4_witness :
    mlookup c4wState.values 1 = some { Key := 1, CreatedAt := 0, msg := c4m 1 } ∧
    canCache (c4m 3) = true ∧
    c4wState.values.length < c4wState.capacity ∧
    mlookup (cacheSet c4wState 9 1 (c4m 3)).1.values 1
        = some { Key := 1, CreatedAt := 9, msg := c4m 3 } ∧
    (cacheSet c4wState 9 1 (c4m 3)).1.keys = removeKey c4wState.keys 1 ++ [1] :=
  ⟨by decide, by decide, by decide,
   by
     have h := (C4_amended c4wState 9 1 { Key := 1, CreatedAt := 0, msg := c4m 1 }
       (c4m 3) (by decide) (by decide)).1 (by decide)
     exact h.1,
   by
     have h := (C4_amended c4wState 9 1 { Key := 1, CreatedAt := 0, msg := c4m 1 }
       (c4m 3) (by decide) (by decide)).1 (by decide)
     exact h.2.2.1⟩

/-! ## Claim C7 -/

/-- C7 counterexample: `NewKey` does not lowercase the name, so it
differs from the spec's lowercased FNV-1a digest on `"A."`, and two
names differing only in letter case yield different keys. -/
theorem C7_counterexample :
    NewKey "A." 1 1 ≠ NewKeySpec "A." 1 1 ∧
    NewKey "A." 1 1 ≠ NewKey "a." 1 1 := by
  decide

theorem map_lowerChar_eq_self (l : List Char)
    (h : ∀ c ∈ l, ¬(65 ≤ c.toNat ∧ c.toNat ≤ 90)) :
    l.map lowerChar = l := by
  induction l with
  | nil => rfl
  | cons c rest ih =>
      have hc : lowerChar c = c := by
        unfold lowerChar
        rw [if_neg (h c (List.mem_cons_self c rest))]
      simp only [List.map_cons, hc]
      rw [ih (fun c' hc' => h c' (List.mem_cons_of_mem c hc'))]

/-- C7 (amended): `NewKey` is the 32-bit FNV-1a digest of the name
bytes exactly as given, concatenated with the big-endian qtype and
qclass; it agrees with the specification's lowercased digest precisely
when the name contains no ASCII uppercase letter (four conjuncts here
reproduce the repository's own `TestNewKey` vectors). -/
theorem C7_amended (name : String) (qtype qclass : Nat)
    (h : ∀ c ∈ name.toList, ¬(65 ≤ c.toNat ∧ c.toNat ≤ 90)) :
    NewKey name qtype qclass = NewKeySpec name qtype qclass ∧
    NewKey "foo." 1 1 = 2839090419 ∧
    NewKey "foo." 28 1 = 3344654668 ∧
    NewKey "foo." 1 255 = 1731870733 ∧
    NewKey "bar." 1 1 = 1951431764 := by
  refine ⟨?_, by decide, by decide, by decide, by decide⟩
  unfold NewKey NewKeySpec strBytes
  rw [map_lowerChar_eq_self name.toList h]

theorem C7_witness :
    (∀ c ∈ "foo.".toList, ¬(65 ≤ c.toNat ∧ c.toNat ≤ 90)) ∧
    NewKey "foo." 1 1 = NewKeySpec "foo." 1 1 :=
  ⟨by decide, (C7_amended "foo." 1 1 (by decide)).1⟩

/-! ## Claim C10 -/

/-- Message with an OPT pseudo-record in the answer section. `MinTTL`
skips OPT records only in the additional section, so this OPT's zero
TTL is folded in. -/
def c10Msg : Msg :=
  { answer := [{ name := ".", rtype := 41, rclass := 0, ttl := 0,
                 rdata := [] }] }

/-- C10 counterexample: a message whose answer, authority and
additional sections contain only OPT pseudo-records, yet `MinTTL`
returns 0 rather than `2 ^ 31 - 1` seconds, because the OPT skip
applies only to the additional section. -/
theorem C10_counterexample :
    (c10Msg.answer ++ c10Msg.ns ++ c10Msg.extra).all
        (fun rr => rr.rtype == typeOPT) = true ∧
    minTTL c10Msg = 0 ∧
    minTTL c10Msg ≠ (maxTTL : Int) * nsPerSec := by
  refine ⟨by decide, by decide, by decide⟩

theorem foldl_opt_skip (l : List RR) (acc : Nat)
    (h : ∀ rr ∈ l, rr.rtype = typeOPT) :
    l.foldl
      (fun acc rr => if rr.rtype = typeOPT then acc else Nat.min rr.ttl acc)
      acc = acc := by
  induction l generalizing acc with
  | nil => rfl
  | cons rr rest ih =>
      simp only [List.foldl_cons, if_pos (h rr (List.mem_cons_self rr rest))]
      exact ih acc (fun rr' hr => h rr' (List.mem_cons_of_mem rr hr))

/-- C10 (amended): for every message whose answer and authority
sections are empty and whose additional section contains only EDNS OPT
pseudo-records, `MinTTL` returns `2 ^ 31 - 1` seconds; consequently
such a NOERROR reply passes `canCache` and, once cached, is unexpired
exactly until `2 ^ 31 - 1` seconds after its creation time. -/
theorem C10_amended (m : Msg) (created now : Int) (k : Nat)
    (ha : m.answer = []) (hn : m.ns = [])
    (he : ∀ rr ∈ m.extra, rr.rtype = typeOPT)
    (hr : m.rcode = rcodeSuccess) :
    minTTL m = (maxTTL : Int) * nsPerSec ∧
    canCache m = true ∧
    (isExpired now { Key := k, CreatedAt := created, msg := m } = false ↔
      now ≤ created + (maxTTL : Int) * nsPerSec) := by
  have hsecs : minTTLSecs m = maxTTL := by
    unfold minTTLSecs
    rw [ha, hn]
    simpa using foldl_opt_skip m.extra maxTTL he
  have hmin : minTTL m = (maxTTL : Int) * nsPerSec := by
    unfold minTTL
    rw [hsecs]
  refine ⟨hmin, ?_, ?_⟩
  · unfold canCache
    rw [if_neg (by rw [hmin]; decide), hr]
    decide
  · unfold isExpired
    simp only [hmin]
    constructor
    · intro hlt
      simp only [decide_eq_false_iff_not, not_lt] at hlt
      exact hlt
    · intro hle
      simp only [decide_eq_false_iff_not, not_lt]
      exact hle

/-- Message used in the C10 witness: NOERROR, empty answer and
authority, one OPT record in the additional section. -/
def c10wMsg : Msg :=
  { extra := [{ name := ".", rtype := 41, rclass := 4096, ttl := 0,
                rdata := [] }] }

theorem C10_witness :
    c10wMsg.answer = [] ∧ c10wMsg.ns = [] ∧
    (∀ rr ∈ c10wMsg.extra, rr.rtype = typeOPT) ∧
    c10wMsg.rcode = rcodeSuccess ∧
    minTTL c10wMsg = (maxTTL : Int) * nsPerSec ∧
    canCache c10wMsg = true :=
  ⟨by decide, by decide, by decide, by decide,
   (C10_amended c10wMsg 0 0 0 (by decide) (by decide) (by decide)
      (by decide)).1,
   (C10_amended c10wMsg 0 0 0 (by decide) (by decide) (by decide)
      (by decide)).2.1⟩

/-! ## Proxy (`dns/proxy.go`) -/

/-- The simplified request handed to the hijack `Handler`. -/
structure Request where
  rtype : Nat
  name : String

/-- The simplified hijack reply: a list of resource records. -/
structure Reply where
  rr : List RR

/-- The proxy's hijack configuration: whether `p.Handler` is non-nil,
and the handler itself. -/
structure ProxyCfg where
  hasHandler : Bool
  handler : Request → Option Reply

/-- Embeds miekg/dns `Msg.SetReply`: copy the request id, mark as a
response, reset the rcode to NOERROR, copy the recursion-desired bit,
and copy the first question when the request has one. -/
def setReply (base req : Msg) : Msg :=
  { base with
    id := req.id
    response := true
    rcode := rcodeSuccess
    recursionDesired := req.recursionDesired
    question := match req.question with
                | [] => base.question
                | q :: _ => [q] }

/-- Embeds `dns.HandleFailed`: reply to the request with SERVFAIL and
no records. -/
def handleFailed (req : Msg) : Msg :=
  { setReply {} req with rcode := rcodeServerFailure }

/-- Embeds `Proxy.reply`: hijack only when a handler is installed and
the request has exactly one question; the synthesized answer gets
`RecursionAvailable` and `SetReply`. -/
def proxyReply (p : ProxyCfg) (r : Msg) : Option Msg :=
  if p.hasHandler = false ∨ r.question.length ≠ 1 then none
  else
    match r.question with
    | [] => none
    | q :: _ =>
        match p.handler { rtype := q.qtype, name := q.name } with
        | none => none
        | some rep =>
            some (setReply { answer := rep.rr, recursionAvailable := true } r)

/-- A Go runtime panic reached by the embedded code. -/
inductive GoPanic where
  | indexOutOfRange
  deriving DecidableEq, Repr

/-- What one `ServeDNS` call produced: the message written to the
client, the cache state afterwards, the queued background task, the
backend calls issued, and which subsystems were touched. -/
structure ServeResult where
  reply : Msg
  st : CacheState
  task : Option Task
  bops : List BOp
  cacheAccessed : Bool
  exchanged : Bool
  handlerInvoked : Bool
  hijacked : Bool
  deriving Repr

/-- Embeds `Proxy.ServeDNS` with the upstream exchange's outcome passed
in (`none` models an exchange error). `r.Question[0]` is read
unconditionally after the hijack attempt, so a request with no
questions is a panic; `writeMsg` reads `msg.Question[0]` of the message
being written, so writing a reply without a question also panics. -/
def serveDNS (p : ProxyCfg) (st : CacheState) (now : Int)
    (exch : Option Msg) (r : Msg) : Except GoPanic ServeResult :=
  let hInv := p.hasHandler && r.question.length == 1
  match proxyReply p r with
  | some reply =>
      if reply.question = [] then Except.error GoPanic.indexOutOfRange
      else Except.ok
        { reply := reply, st := st, task := none, bops := [],
          cacheAccessed := false, exchanged := false,
          handlerInvoked := hInv, hijacked := true }
  | none =>
      match r.question with
      | [] => Except.error GoPanic.indexOutOfRange
      | q :: _ =>
          let key := NewKey q.name q.qtype q.qclass
          let g := getValue st now key
          match g.1 with
          | some v =>
              let reply := setReply v.msg r
              if reply.question = [] then Except.error GoPanic.indexOutOfRange
              else Except.ok
                { reply := reply, st := st, task := g.2, bops := [],
                  cacheAccessed := true, exchanged := false,
                  handlerInvoked := hInv, hijacked := false }
          | none =>
              match exch with
              | some rr =>
                  if rr.question = [] then
                    Except.error GoPanic.indexOutOfRange
                  else
                    let s := cacheSet st now key rr
                    Except.ok
                      { reply := rr, st := s.1, task := g.2, bops := s.2.1,
                        cacheAccessed := true, exchanged := true,
                        handlerInvoked := hInv, hijacked := false }
              | none =>
                  Except.ok
                    { reply := handleFailed r, st := st, task := g.2,
                      bops := [], cacheAccessed := true, exchanged := true,
                      handlerInvoked := hInv, hijacked := false }

/-! ## Claim C1 -/

/-- A request carrying two questions. -/
def c1TwoQ : Msg :=
  { id := 7,
    question := [{ name := "a.", qtype := 1, qclass := 1 },
                 { name := "b.", qtype := 1, qclass := 1 }] }

/-- The upstream's reply to the two-question request's first question. -/
def c1Upstream : Msg :=
  { id := 7, response := true,
    question := [{ name := "a.", qtype := 1, qclass := 1 }],
    answer := [{ name := "a.", rtype := 1, rclass := 1, ttl := 60,
                 rdata := [192, 0, 2, 7] }] }

/-- Proxy configuration with a hijack handler installed that matches
nothing. -/
def c1Cfg : ProxyCfg := { hasHandler := true, handler := fun _ => none }

/-- C1: the code does not reply SERVFAIL to messages whose question
count differs from one. With two questions, `ServeDNS` falls through to
the cache and upstream path for the first question and answers with the
upstream reply (rcode NOERROR, cache written); with zero questions it
panics indexing `r.Question[0]`. The claim (and the specification) say
SERVFAIL with no cache access and no upstream exchange. -/
theorem C1_serveDNS_eval :
    (Except.map
        (fun res => (res.reply.rcode, res.cacheAccessed, res.exchanged,
                     res.hijacked, mlookup res.st.values
                       (NewKey "a." 1 1)))
        (serveDNS c1Cfg (newCacheState 8 false) 0 (some c1Upstream) c1TwoQ)
      = Except.ok (rcodeSuccess, true, true, false,
          some { Key := NewKey "a." 1 1, CreatedAt := 0, msg := c1Upstream })) ∧
    serveDNS c1Cfg (newCacheState 8 false) 0 (some c1Upstream)
        { id := 7 } = Except.error GoPanic.indexOutOfRange ∧
    rcodeSuccess ≠ rcodeServerFailure := by
  refine ⟨by rfl, by rfl, by decide⟩

/-! ## Claim C5 -/

/-- Backend contents used for the C5 evaluation: three values with keys
1, 2 and 3, in insertion order. -/
def c5Backend : BackendStore :=
  ⟨[{ Key := 1, CreatedAt := 0, msg := c4m 1 },
    { Key := 2, CreatedAt := 0, msg := c4m 2 },
    { Key := 3, CreatedAt := 0, msg := c4m 3 }]⟩

/-- C5: loading a backend holding values v1, v2, v3 into a cache of
capacity 1 issues a backend eviction only for v1 (the claim and the
`load` comment say the older entries v1 and v2), installs v3 in memory,
and leaves the backend holding v2 and v3 — so the in-memory contents do
not equal the backend contents. -/
theorem C5_load_eval :
    (cacheLoad 1 false c5Backend).2.2 = [1] ∧
    (cacheLoad 1 false c5Backend).1.values.map Prod.fst = [3] ∧
    (cacheLoad 1 false c5Backend).1.keys = [3] ∧
    (cacheLoad 1 false c5Backend).2.1.entries.map Value.Key = [2, 3] ∧
    ([3] : List Nat) ≠ [2, 3] := by
  refine ⟨by decide, by decide, by decide, by decide, by decide⟩

/-! ## Tokenizing (`strings.Fields`) -/

/-- Whitespace per `unicode.IsSpace`, restricted to the ASCII range the
inputs here use: space, tab, newline, carriage return, vertical tab,
form feed. -/
def isSpace (c : Char) : Bool :=
  c.toNat = 32 || c.toNat = 9 || c.toNat = 10 ||
  c.toNat = 13 || c.toNat = 11 || c.toNat = 12

/-- Accumulator loop for `strings.Fields`: `acc` holds the current
token reversed. -/
def fieldsAcc : List Char → List Char → List (List Char)
  | acc, [] => if acc = [] then [] else [acc.reverse]
  | acc, c :: cs =>
      if isSpace c then
        if acc = [] then fieldsAcc [] cs else acc.reverse :: fieldsAcc [] cs
      else fieldsAcc (c :: acc) cs

/-- `strings.Fields` on a character list. -/
def fieldsChars (l : List Char) : List (List Char) := fieldsAcc [] l

/-- `strings.Fields`: split a string around runs of whitespace. -/
def strFields (s : String) : List String :=
  (fieldsChars s.toList).map (fun l => String.mk l)

/-! ## Hosts parser (`hosts/hosts.go`) -/

/-- `hosts.LocalNames`. -/
def LocalNames : List String :=
  ["localhost", "localhost.localdomain", "local", "broadcasthost",
   "ip6-localhost", "ip6-loopback", "ip6-localnet", "ip6-mcastprefix",
   "ip6-allnodes", "ip6-allrouters", "ip6-allhosts", "0.0.0.0"]

/-- `strings.HasPrefix(line, "#")`. -/
def lineStartsWithHash (s : String) : Bool :=
  match s.toList with
  | '#' :: _ => true
  | _ => false

/-- `entries[name] = append(entries[name], *ipAddr)` on the hosts map
model (IP addresses are modelled by their literal text; resolving them
is `net.ResolveIPAddr`, passed in as a function). -/
def hostsAdd (es : List (String × List String)) (name ip : String) :
    List (String × List String) :=
  match es with
  | [] => [(name, [ip])]
  | (n, ips) :: rest =>
      if n = name then (n, ips ++ [ip]) :: rest
      else (n, ips) :: hostsAdd rest name ip

/-- The inner loop of `Parser.Parse` over `fields[1:]`: names in the
ignored set are skipped, the rest are added. -/
def hostsAddNames (es : List (String × List String)) (ignored : List String)
    (ip : String) (names : List String) : List (String × List String) :=
  names.foldl
    (fun acc nm => if ignored.contains nm then acc else hostsAdd acc nm ip) es

/-- Embeds `Parser.Parse`: skip lines starting with `#` and lines with
fewer than two fields, resolve the first field as an IP address
(failure aborts with an error naming the line counter), and add every
remaining field as a host name. -/
def hostsParse (resolve : String → Option String) (ignored : List String) :
    List String → Nat → List (String × List String) →
    Except String (List (String × List String))
  | [], _, es => Except.ok es
  | line :: rest, n, es =>
      if lineStartsWithHash line then hostsParse resolve ignored rest n es
      else
        let fs := strFields line
        if fs.length < 2 then hostsParse resolve ignored rest n es
        else
          match fs with
          | [] => hostsParse resolve ignored rest n es
          | f0 :: names =>
              match resolve f0 with
              | none => Except.error
                  ("line " ++ toString n ++ ": invalid ip address: " ++ f0)
              | some ip =>
                  hostsParse resolve ignored rest (n + 1)
                    (hostsAddNames es ignored ip names)

/-- `Parser.Parse` from the top: line counter 1, empty entry map. -/
def hostsParseTop (resolve : String → Option String)
    (ignored : List String) (lines : List String) :
    Except String (List (String × List String)) :=
  hostsParse resolve ignored lines 1 []

/-- Lookup in the parsed hosts map model (`Hosts.Get`). -/
def hostsGet (es : List (String × List String)) (name : String) :
    Option (List String) :=
  match es with
  | [] => none
  | (n, ips) :: rest => if n = name then some ips else hostsGet rest name

/-! ## Claim C8 -/

/-- IP resolver for the C8 evaluation: accepts exactly the literal used
in the input line. -/
def c8Resolve : String → Option String :=
  fun s => if s = "192.0.2.1" then some s else none

/-- C8: on the line `"192.0.2.1 foo # bar"` the parser adds `"#"` and
`"bar"` as host-table keys: nothing stops at the comment marker, so the
claim (and the repository's own `hosts_test.go`, which expects `"#"`
and `"#comment"` never to be keys) is contradicted. Lines with fewer
than two fields are indeed skipped. -/
theorem C8_parse_eval :
    hostsParseTop c8Resolve LocalNames ["192.0.2.1 foo # bar"]
      = Except.ok [("foo", ["192.0.2.1"]), ("#", ["192.0.2.1"]),
                   ("bar", ["192.0.2.1"])] ∧
    (∀ es, hostsParseTop c8Resolve LocalNames ["192.0.2.1 foo # bar"]
        = Except.ok es →
      hostsGet es "#" = some ["192.0.2.1"] ∧
      hostsGet es "bar" = some ["192.0.2.1"]) ∧
    hostsParseTop c8Resolve LocalNames ["192.0.2.1"] = Except.ok [] := by
  refine ⟨by rfl, ?_, by rfl⟩
  intro es hes
  rw [show hostsParseTop c8Resolve LocalNames ["192.0.2.1 foo # bar"]
      = Except.ok [("foo", ["192.0.2.1"]), ("#", ["192.0.2.1"]),
                   ("bar", ["192.0.2.1"])] from rfl] at hes
  cases hes
  exact ⟨by rfl, by rfl⟩

/-! ## SQL log store (`sql/sql.go`) and logger (`sql/logger.go`) -/

/-- `time.Time.Unix()`: whole seconds (floor) of an instant given in
nanoseconds. -/
def unixSecs (t : Int) : Int := t.fdiv nsPerSec

/-- A row of the `log` table. -/
structure LogRow where
  id : Nat
  time : Int
  hijacked : Bool
  addrId : Nat
  typeId : Nat
  questionId : Nat
  deriving DecidableEq, Repr

/-- A row of the `log_rr_answer` join table. -/
structure LogAnswerRow where
  id : Nat
  logId : Nat
  answerId : Nat
  deriving DecidableEq, Repr

/-- The SQLite store: dimension tables (id/value pairs in row order),
the `log` table, and the `log_rr_answer` join table. -/
structure DB where
  rrType : List (Nat × Nat)
  rrQuestion : List (Nat × String)
  rrAnswer : List (Nat × String)
  remoteAddr : List (Nat × List Nat)
  log : List LogRow
  logRRAnswer : List LogAnswerRow
  deriving DecidableEq, Repr

/-- The store right after schema creation. -/
def emptyDB : DB := ⟨[], [], [], [], [], []⟩

/-- The rowid SQLite assigns to the next insert: largest existing id
plus one. -/
def nextId (ids : List Nat) : Nat := ids.foldl Nat.max 0 + 1

/-- Lookup by id in a dimension table. -/
def alookup {α : Type} (tbl : List (Nat × α)) (i : Nat) : Option α :=
  match tbl with
  | [] => none
  | (j, v) :: rest => if j = i then some v else alookup rest i

/-- Embeds `getOrInsert`: select the id of an existing row with this
value, otherwise insert the value and return the fresh id. -/
def getOrInsert {α : Type} [DecidableEq α] (tbl : List (Nat × α))
    (v : α) : Nat × List (Nat × α) :=
  match tbl.find? (fun e => decide (e.2 = v)) with
  | some e => (e.1, tbl)
  | none =>
      let id := nextId (tbl.map Prod.fst)
      (id, tbl ++ [(id, v)])

/-- One step of the per-answer upsert loop in `writeLog`: collect the
answer's id and the updated `rr_answer` table. -/
def answersFold (acc : List Nat × List (Nat × String)) (a : String) :
    List Nat × List (Nat × String) :=
  let g := getOrInsert acc.2 a
  (acc.1 ++ [g.1], g.2)

/-- One step of the `log_rr_answer` insert loop in `writeLog`. -/
def lraFold (logId : Nat) (lst : List LogAnswerRow) (aid : Nat) :
    List LogAnswerRow :=
  lst ++ [{ id := nextId (lst.map LogAnswerRow.id),
            logId := logId, answerId := aid }]

/-- Embeds `Client.writeLog`: upsert each dimension row, insert the
`log` row, then insert one `log_rr_answer` row per answer in the given
order (all in one committed transaction). The time is stored in whole
seconds via `Unix()`. -/
def writeLog (db : DB) (t : Int) (addr : List Nat) (hij : Bool)
    (qtype : Nat) (question : String) (answers : List String) : DB :=
  let rt := getOrInsert db.rrType qtype
  let rq := getOrInsert db.rrQuestion question
  let ra := getOrInsert db.remoteAddr addr
  let ans := answers.foldl answersFold ([], db.rrAnswer)
  let logId := nextId (db.log.map LogRow.id)
  let newLog := db.log ++
    [{ id := logId, time := unixSecs t, hijacked := hij,
       addrId := ra.1, typeId := rt.1, questionId := rq.1 }]
  let newLra := ans.1.foldl (lraFold logId) db.logRRAnswer
  { rrType := rt.2, rrQuestion := rq.2, rrAnswer := ans.2,
    remoteAddr := ra.2, log := newLog, logRRAnswer := newLra }

/-- A row of `Client.readLog`'s join result (the `rr_answer.id` used
only for ordering is carried along; it is NULL for a log row with no
answers). -/
structure RawRow where
  id : Nat
  time : Int
  addr : List Nat
  hijacked : Bool
  qtype : Nat
  question : String
  answer : String
  answerId : Option Nat
  deriving DecidableEq, Repr

/-- Insert into a list sorted by the strict "comes before" test. -/
def insertBy {α : Type} (le : α → α → Bool) (a : α) : List α → List α
  | [] => [a]
  | b :: bs => if le a b then a :: b :: bs else b :: insertBy le a bs

/-- Insertion sort by the "comes before" test. -/
def sortBy {α : Type} (le : α → α → Bool) (l : List α) : List α :=
  l.foldr (insertBy le) []

/-- `ORDER BY time DESC, id DESC` on `log` rows. -/
def logRowBefore (a b : LogRow) : Bool :=
  b.time < a.time || (a.time == b.time && b.id < a.id)

/-- Option-valued id comparison for `rr_answer.id DESC` (a NULL id only
occurs on rows without answers). -/
def optIdLt (x y : Option Nat) : Bool :=
  match x, y with
  | none, some _ => true
  | some a, some b => a < b
  | _, _ => false

/-- `ORDER BY time DESC, rr_answer.id DESC` on join rows. -/
def rawRowBefore (a b : RawRow) : Bool :=
  b.time < a.time || (a.time == b.time && optIdLt b.answerId a.answerId)

/-- The join rows contributed by one `log` row: its dimensions, left
joined with `log_rr_answer` and `rr_answer` (a missing answer yields
one row with the empty string, per `IFNULL`). -/
def rowsFor (db : DB) (L : LogRow) : List RawRow :=
  let addr := (alookup db.remoteAddr L.addrId).getD []
  let qtype := (alookup db.rrType L.typeId).getD 0
  let question := (alookup db.rrQuestion L.questionId).getD ""
  let lras := db.logRRAnswer.filter (fun la => la.logId == L.id)
  if lras.isEmpty then
    [{ id := L.id, time := L.time, addr := addr, hijacked := L.hijacked,
       qtype := qtype, question := question, answer := "",
       answerId := none }]
  else
    lras.map (fun la =>
      { id := L.id, time := L.time, addr := addr, hijacked := L.hijacked,
        qtype := qtype, question := question,
        answer := (alookup db.rrAnswer la.answerId).getD "",
        answerId := some la.answerId })

/-- Embeds `Client.readLog`: the `n` most recent log ids (time desc,
id desc), joined to their dimensions and answers, ordered by time desc
then `rr_answer.id` desc. -/
def readLog (db : DB) (n : Nat) : List RawRow :=
  let ids := ((sortBy logRowBefore db.log).take n).map LogRow.id
  let rows := (db.log.filter (fun L => ids.contains L.id)).foldl
      (fun acc L => acc ++ rowsFor db L) []
  sortBy rawRowBefore rows

/-- A reconstructed logical entry (`sql.LogEntry` on the logger side). -/
structure LogEntry where
  time : Int
  remoteAddr : List Nat
  hijacked : Bool
  qtype : Nat
  question : String
  answers : List String
  deriving DecidableEq, Repr

/-- Embeds the merging loop of `Logger.Read`: rows sharing a log id are
folded into one entry, answers accumulated in row order, empty answers
skipped. `seen` maps a log id to the entry's index. -/
def mergeRows : List RawRow → List (Nat × Nat) → List LogEntry →
    List LogEntry
  | [], _, es => es
  | r :: rs, seen, es =>
      match alookup seen r.id with
      | some idx =>
          let es' :=
            match es.get? idx with
            | some e =>
                es.set idx
                  { e with answers :=
                      if r.answer = "" then e.answers
                      else e.answers ++ [r.answer] }
            | none => es
          mergeRows rs seen es'
      | none =>
          let e : LogEntry :=
            { time := r.time, remoteAddr := r.addr, hijacked := r.hijacked,
              qtype := r.qtype, question := r.question,
              answers := if r.answer = "" then [] else [r.answer] }
          mergeRows rs (seen ++ [(r.id, es.length)]) (es ++ [e])

/-- Embeds `Logger.Read`. -/
def loggerRead (db : DB) (n : Nat) : List LogEntry :=
  mergeRows (readLog db n) [] []

/-! ## Claim C9: supporting lemmas -/

/-- `[m, m+1, ..., m+k-1]`. -/
def natsFrom (m : Nat) : Nat → List Nat
  | 0 => []
  | k + 1 => m :: natsFrom (m + 1) k

/-- A dimension table holding `xs` with consecutive ids from `m`. -/
def mkTable (m : Nat) : List String → List (Nat × String)
  | [] => []
  | x :: rest => (m, x) :: mkTable (m + 1) rest

/-- `log_rr_answer` rows with consecutive ids from `m`, a fixed log id
and the given answer ids. -/
def mkLras (m lid : Nat) : List Nat → List LogAnswerRow
  | [] => []
  | a :: rest =>
      { id := m, logId := lid, answerId := a } :: mkLras (m + 1) lid rest

theorem nextId_append (ids : List Nat) (m : Nat) :
    nextId (ids ++ [m]) = Nat.max (ids.foldl Nat.max 0) m + 1 := by
  unfold nextId
  rw [List.foldl_append]
  rfl

theorem nextId_snoc_fresh (ids : List Nat) :
    nextId (ids ++ [nextId ids]) = nextId ids + 1 := by
  rw [nextId_append]
  unfold nextId
  have h : (List.foldl Nat.max 0 ids).max (List.foldl Nat.max 0 ids + 1)
      = List.foldl Nat.max 0 ids + 1 :=
    Nat.max_eq_right (by omega)
  rw [h]

theorem foldAnswers (xs : List String) :
    ∀ (tbl : List (Nat × String)) (ids0 : List Nat), xs.Nodup →
    (∀ x ∈ xs, ∀ e ∈ tbl, e.2 ≠ x) →
    xs.foldl answersFold (ids0, tbl)
      = (ids0 ++ natsFrom (nextId (tbl.map Prod.fst)) xs.length,
         tbl ++ mkTable (nextId (tbl.map Prod.fst)) xs) := by
  induction xs with
  | nil => intro tbl ids0 _ _; simp [natsFrom, mkTable]
  | cons x rest ih =>
      intro tbl ids0 hnd hfresh
      have hfind : tbl.find? (fun e => decide (e.2 = x)) = none := by
        rw [List.find?_eq_none]
        intro e he
        simpa using hfresh x (List.mem_cons_self x rest) e he
      have hstep : answersFold (ids0, tbl) x
          = (ids0 ++ [nextId (tbl.map Prod.fst)],
             tbl ++ [(nextId (tbl.map Prod.fst), x)]) := by
        unfold answersFold getOrInsert
        rw [hfind]
      have hx_notin : x ∉ rest := (List.nodup_cons.mp hnd).1
      have hnd' : rest.Nodup := (List.nodup_cons.mp hnd).2
      have hfresh' : ∀ y ∈ rest,
          ∀ e ∈ tbl ++ [(nextId (tbl.map Prod.fst), x)], e.2 ≠ y := by
        intro y hy e he
        rcases List.mem_append.mp he with he | he
        · exact hfresh y (List.mem_cons_of_mem x hy) e he
        · simp only [List.mem_singleton] at he
          subst he
          intro hcon
          simp only at hcon
          rw [← hcon] at hy
          exact hx_notin hy
      have hid : nextId ((tbl ++ [(nextId (tbl.map Prod.fst), x)]).map
          Prod.fst) = nextId (tbl.map Prod.fst) + 1 := by
        rw [List.map_append]
        exact nextId_snoc_fresh (tbl.map Prod.fst)
      calc (x :: rest).foldl answersFold (ids0, tbl)
          = rest.foldl answersFold (answersFold (ids0, tbl) x) := by
            rw [List.foldl_cons]
        _ = rest.foldl answersFold
              (ids0 ++ [nextId (tbl.map Prod.fst)],
               tbl ++ [(nextId (tbl.map Prod.fst), x)]) := by rw [hstep]
        _ = (ids0 ++ [nextId (tbl.map Prod.fst)]
               ++ natsFrom (nextId (tbl.map Prod.fst) + 1) rest.length,
             tbl ++ [(nextId (tbl.map Prod.fst), x)]
               ++ mkTable (nextId (tbl.map Prod.fst) + 1) rest) := by
            rw [ih _ _ hnd' hfresh', hid]
        _ = (ids0 ++ natsFrom (nextId (tbl.map Prod.fst))
               (x :: rest).length,
             tbl ++ mkTable (nextId (tbl.map Prod.fst)) (x :: rest)) := by
            simp [natsFrom, mkTable, List.append_assoc, List.length_cons]

theorem foldLra (aids : List Nat) (lid : Nat) :
    ∀ lst : List LogAnswerRow,
    aids.foldl (lraFold lid) lst
      = lst ++ mkLras (nextId (lst.map LogAnswerRow.id)) lid aids := by
  induction aids with
  | nil => intro lst; simp [mkLras]
  | cons a rest ih =>
      intro lst
      have hid : nextId ((lraFold lid lst a).map LogAnswerRow.id)
          = nextId (lst.map LogAnswerRow.id) + 1 := by
        unfold lraFold
        rw [List.map_append]
        have := nextId_snoc_fresh (lst.map LogAnswerRow.id)
        simpa using this
      calc (a :: rest).foldl (lraFold lid) lst
          = rest.foldl (lraFold lid) (lraFold lid lst a) := by
            rw [List.foldl_cons]
        _ = (lraFold lid lst a) ++ mkLras
              (nextId (lst.map LogAnswerRow.id) + 1) lid rest := by
            rw [ih (lraFold lid lst a), hid]
        _ = lst ++ mkLras (nextId (lst.map LogAnswerRow.id)) lid
              (a :: rest) := by
            unfold lraFold
            simp [mkLras, List.append_assoc]

/-- `writeLog` on the empty store, for fresh pairwise-distinct answers:
every dimension value gets id 1, the answers get ids 1..k in order, the
single log row has id 1, and the join rows have ids 1..k pointing at
answer ids 1..k. -/
theorem writeLog_empty (t : Int) (addr : List Nat) (hij : Bool)
    (qtype : Nat) (q : String) (answers : List String)
    (hnd : answers.Nodup) :
    writeLog emptyDB t addr hij qtype q answers
      = { rrType := [(1, qtype)], rrQuestion := [(1, q)],
          rrAnswer := mkTable 1 answers, remoteAddr := [(1, addr)],
          log := [{ id := 1, time := unixSecs t, hijacked := hij,
                    addrId := 1, typeId := 1, questionId := 1 }],
          logRRAnswer := mkLras 1 1 (natsFrom 1 answers.length) } := by
  have hans : answers.foldl answersFold ([], emptyDB.rrAnswer)
      = (natsFrom 1 answers.length, mkTable 1 answers) := by
    have := foldAnswers answers [] [] hnd (by intro x _ e he; cases he)
    simpa [emptyDB, nextId] using this
  have hlra : (natsFrom 1 answers.length).foldl (lraFold 1) []
      = mkLras 1 1 (natsFrom 1 answers.length) := by
    have := foldLra (natsFrom 1 answers.length) 1 []
    simpa [nextId] using this
  unfold writeLog
  simp only [emptyDB] at hans ⊢
  rw [hans]
  simp only [getOrInsert, List.find?_nil, nextId, List.map_nil,
    List.foldl_nil, List.nil_append]
  rw [hlra]

theorem mem_mkLras (lid : Nat) :
    ∀ (aids : List Nat) (m : Nat) (la : LogAnswerRow),
    la ∈ mkLras m lid aids → la.logId = lid := by
  intro aids
  induction aids with
  | nil => intro m la h; cases h
  | cons a rest ih =>
      intro m la h
      rcases List.mem_cons.mp h with h | h
      · rw [h]
      · exact ih (m + 1) la h

theorem filter_mkLras (m lid : Nat) (aids : List Nat) :
    (mkLras m lid aids).filter (fun la => la.logId == lid)
      = mkLras m lid aids := by
  rw [List.filter_eq_self]
  intro la hla
  simp [mem_mkLras lid aids m la hla]

theorem alookup_mkTable :
    ∀ (xs : List String) (m p : Nat) (hp : p < xs.length),
    alookup (mkTable m xs) (m + p) = some (xs.get ⟨p, hp⟩) := by
  intro xs
  induction xs with
  | nil => intro m p hp; simp at hp
  | cons x rest ih =>
      intro m p hp
      cases p with
      | zero => simp [mkTable, alookup]
      | succ p' =>
          have hne : ¬ m = m + (p' + 1) := by omega
          have harith : m + (p' + 1) = (m + 1) + p' := by omega
          have hp' : p' < rest.length := by
            simpa using Nat.lt_of_succ_lt_succ hp
          calc alookup (mkTable m (x :: rest)) (m + (p' + 1))
              = alookup (mkTable (m + 1) rest) (m + (p' + 1)) := by
                simp [mkTable, alookup, hne]
            _ = alookup (mkTable (m + 1) rest) ((m + 1) + p') := by
                rw [harith]
            _ = some (rest.get ⟨p', hp'⟩) := ih (m + 1) p' hp'
            _ = some ((x :: rest).get ⟨p' + 1, hp⟩) := rfl

/-- The join rows `readLog` produces for a single log row with id 1 and
these dimension values, one per answer, with consecutive answer ids
starting at `j`. -/
def expRows (t2 : Int) (addr : List Nat) (hij : Bool) (qt : Nat)
    (q : String) : Nat → List String → List RawRow
  | _, [] => []
  | j, a :: rest =>
      { id := 1, time := t2, addr := addr, hijacked := hij, qtype := qt,
        question := q, answer := a, answerId := some j }
      :: expRows t2 addr hij qt q (j + 1) rest

theorem mkLras_rows (t2 : Int) (addr : List Nat) (hij : Bool) (qt : Nat)
    (q : String) (tbl : List (Nat × String)) :
    ∀ (xs : List String) (j m : Nat),
    (∀ p (hp : p < xs.length), alookup tbl (j + p) = some (xs.get ⟨p, hp⟩)) →
    (mkLras m 1 (natsFrom j xs.length)).map
      (fun la => ({ id := 1, time := t2, addr := addr, hijacked := hij,
                    qtype := qt, question := q,
                    answer := (alookup tbl la.answerId).getD "",
                    answerId := some la.answerId } : RawRow))
      = expRows t2 addr hij qt q j xs := by
  intro xs
  induction xs with
  | nil => intro j m h; rfl
  | cons x rest ih =>
      intro j m h
      have h0 : alookup tbl j = some x := by
        have := h 0 (by simp)
        simpa using this
      have htail : ∀ p (hp : p < rest.length),
          alookup tbl ((j + 1) + p) = some (rest.get ⟨p, hp⟩) := by
        intro p hp
        have harith : j + (p + 1) = (j + 1) + p := by omega
        have := h (p + 1) (by simpa using Nat.succ_lt_succ hp)
        rw [harith] at this
        simpa using this
      show (mkLras m 1 (j :: natsFrom (j + 1) rest.length)).map _ = _
      simp only [mkLras, List.map_cons]
      rw [ih (j + 1) (m + 1) htail]
      simp [expRows, h0]

theorem mem_insertBy {α : Type} (le : α → α → Bool) (a x : α) :
    ∀ l : List α, x ∈ insertBy le a l → x = a ∨ x ∈ l := by
  intro l
  induction l with
  | nil =>
      intro h
      simp [insertBy] at h
      exact Or.inl h
  | cons b bs ih =>
      intro h
      unfold insertBy at h
      split at h
      · rcases List.mem_cons.mp h with h | h
        · exact Or.inl h
        · exact Or.inr h
      · rcases List.mem_cons.mp h with h | h
        · exact Or.inr (h ▸ List.mem_cons_self b bs)
        · rcases ih h with h | h
          · exact Or.inl h
          · exact Or.inr (List.mem_cons_of_mem b h)

theorem mem_sortBy {α : Type} (le : α → α → Bool) (x : α) :
    ∀ l : List α, x ∈ sortBy le l → x ∈ l := by
  intro l
  induction l with
  | nil => intro h; exact h
  | cons b bs ih =>
      intro h
      rcases mem_insertBy le b x (sortBy le bs) h with h | h
      · exact h ▸ List.mem_cons_self b bs
      · exact List.mem_cons_of_mem b (ih h)

theorem insertBy_all_false {α : Type} (le : α → α → Bool) (a : α) :
    ∀ l : List α, (∀ b ∈ l, le a b = false) → insertBy le a l = l ++ [a] := by
  intro l
  induction l with
  | nil => intro _; rfl
  | cons b bs ih =>
      intro h
      unfold insertBy
      rw [h b (List.mem_cons_self b bs)]
      simp only [Bool.false_eq_true, if_false, List.cons_append,
        List.cons.injEq, true_and]
      exact ih (fun b' hb' => h b' (List.mem_cons_of_mem b hb'))

theorem mem_expRows (t2 : Int) (addr : List Nat) (hij : Bool) (qt : Nat)
    (q : String) :
    ∀ (xs : List String) (j : Nat) (r : RawRow),
    r ∈ expRows t2 addr hij qt q j xs →
    r.id = 1 ∧ r.time = t2 ∧ r.addr = addr ∧ r.hijacked = hij ∧
    r.qtype = qt ∧ r.question = q ∧ r.answer ∈ xs ∧
    ∃ i, r.answerId = some i ∧ j ≤ i := by
  intro xs
  induction xs with
  | nil => intro j r h; cases h
  | cons x rest ih =>
      intro j r h
      rcases List.mem_cons.mp h with h | h
      · subst h
        refine ⟨rfl, rfl, rfl, rfl, rfl, rfl, List.mem_cons_self x rest,
          j, rfl, Nat.le_refl j⟩
      · obtain ⟨h1, h2, h3, h4, h5, h6, h7, i, h8, h9⟩ := ih (j + 1) r h
        exact ⟨h1, h2, h3, h4, h5, h6, List.mem_cons_of_mem x h7,
          i, h8, by omega⟩

theorem sortBy_expRows (t2 : Int) (addr : List Nat) (hij : Bool)
    (qt : Nat) (q : String) :
    ∀ (xs : List String) (j : Nat),
    sortBy rawRowBefore (expRows t2 addr hij qt q j xs)
      = (expRows t2 addr hij qt q j xs).reverse := by
  intro xs
  induction xs with
  | nil => intro j; rfl
  | cons x rest ih =>
      intro j
      show insertBy rawRowBefore _ (sortBy rawRowBefore _) = _
      rw [ih (j + 1)]
      rw [insertBy_all_false]
      · rw [← List.reverse_cons]
        rfl
      · intro b hb
        obtain ⟨_, hbt, _, _, _, _, _, i, hbid, hbi⟩ :=
          mem_expRows t2 addr hij qt q rest (j + 1) b
            (List.mem_reverse.mp hb)
        unfold rawRowBefore
        rw [hbt, hbid]
        have h1 : decide (t2 < t2) = false := by simp
        have h2 : optIdLt (some i) (some j) = false := by
          simp only [optIdLt]
          simp only [decide_eq_false_iff_not]
          omega
        simp [h1, h2, optIdLt]
        omega

theorem expRows_map_answer (t2 : Int) (addr : List Nat) (hij : Bool)
    (qt : Nat) (q : String) :
    ∀ (xs : List String) (j : Nat),
    (expRows t2 addr hij qt q j xs).map RawRow.answer = xs := by
  intro xs
  induction xs with
  | nil => intro j; rfl
  | cons x rest ih =>
      intro j
      simp only [expRows, List.map_cons]
      rw [ih (j + 1)]

theorem mergeRows_same_id :
    ∀ (rows : List RawRow) (e : LogEntry),
    (∀ r ∈ rows, r.id = 1 ∧ r.answer ≠ "") →
    mergeRows rows [(1, 0)] [e]
      = [{ e with answers := e.answers ++ rows.map RawRow.answer }] := by
  intro rows
  induction rows with
  | nil => intro e _; simp [mergeRows]
  | cons r rs ih =>
      intro e h
      obtain ⟨hid, hans⟩ := h r (List.mem_cons_self r rs)
      have hstep : mergeRows (r :: rs) [(1, 0)] [e]
          = mergeRows rs [(1, 0)]
              [{ e with answers := e.answers ++ [r.answer] }] := by
        simp only [mergeRows]
        rw [hid]
        simp only [if_neg hans]
        rfl
      rw [hstep, ih _ (fun r' hr' => h r' (List.mem_cons_of_mem r hr'))]
      simp [List.append_assoc]

theorem mergeRows_uniform (rows : List RawRow) (ts : Int)
    (addr : List Nat) (hij : Bool) (qt : Nat) (q : String)
    (hne : rows ≠ [])
    (h : ∀ r ∈ rows, r.id = 1 ∧ r.time = ts ∧ r.addr = addr ∧
         r.hijacked = hij ∧ r.qtype = qt ∧ r.question = q ∧
         r.answer ≠ "") :
    mergeRows rows [] []
      = [{ time := ts, remoteAddr := addr, hijacked := hij, qtype := qt,
           question := q, answers := rows.map RawRow.answer }] := by
  cases rows with
  | nil => exact absurd rfl hne
  | cons r rs =>
      obtain ⟨h1, h2, h3, h4, h5, h6, h7⟩ := h r (List.mem_cons_self r rs)
      have hstep : mergeRows (r :: rs) [] []
          = mergeRows rs [(r.id, 0)]
              [{ time := r.time, remoteAddr := r.addr,
                 hijacked := r.hijacked, qtype := r.qtype,
                 question := r.question, answers := [r.answer] }] := by
        simp only [mergeRows]
        simp only [if_neg h7]
        rfl
      rw [hstep, h1]
      rw [mergeRows_same_id rs _
        (fun r' hr' => ⟨(h r' (List.mem_cons_of_mem r hr')).1,
                        (h r' (List.mem_cons_of_mem r hr')).2.2.2.2.2.2⟩)]
      rw [h2, h3, h4, h5, h6]
      rfl

/-- The store produced by `writeLog` on the empty store (the right-hand
side of `writeLog_empty`). -/
def writtenDB (t : Int) (addr : List Nat) (hij : Bool) (qtype : Nat)
    (q : String) (answers : List String) : DB :=
  { rrType := [(1, qtype)], rrQuestion := [(1, q)],
    rrAnswer := mkTable 1 answers, remoteAddr := [(1, addr)],
    log := [{ id := 1, time := unixSecs t, hijacked := hij,
              addrId := 1, typeId := 1, questionId := 1 }],
    logRRAnswer := mkLras 1 1 (natsFrom 1 answers.length) }

theorem readLog_writtenDB_cons (t : Int) (addr : List Nat) (hij : Bool)
    (qtype : Nat) (q : String) (a : String) (rest : List String) :
    readLog (writtenDB t addr hij qtype q (a :: rest)) 1
      = (expRows (unixSecs t) addr hij qtype q 1 (a :: rest)).reverse := by
  have hfilter : (writtenDB t addr hij qtype q (a :: rest)).logRRAnswer.filter
      (fun la => la.logId ==
        ({ id := 1, time := unixSecs t, hijacked := hij, addrId := 1,
           typeId := 1, questionId := 1 } : LogRow).id)
      = mkLras 1 1 (natsFrom 1 (a :: rest).length) :=
    filter_mkLras 1 1 (natsFrom 1 (a :: rest).length)
  have hrows : rowsFor (writtenDB t addr hij qtype q (a :: rest))
      { id := 1, time := unixSecs t, hijacked := hij, addrId := 1,
        typeId := 1, questionId := 1 }
      = expRows (unixSecs t) addr hij qtype q 1 (a :: rest) := by
    unfold rowsFor
    rw [hfilter]
    show (mkLras 1 1 (natsFrom 1 (a :: rest).length)).map
        (fun la => ({ id := 1, time := unixSecs t, addr := addr,
                      hijacked := hij, qtype := qtype, question := q,
                      answer := (alookup (mkTable 1 (a :: rest))
                        la.answerId).getD "",
                      answerId := some la.answerId } : RawRow))
        = expRows (unixSecs t) addr hij qtype q 1 (a :: rest)
    exact mkLras_rows (unixSecs t) addr hij qtype q
      (mkTable 1 (a :: rest)) (a :: rest) 1 1
      (fun p hp => alookup_mkTable (a :: rest) 1 p hp)
  have hread : readLog (writtenDB t addr hij qtype q (a :: rest)) 1
      = sortBy rawRowBefore (rowsFor (writtenDB t addr hij qtype q (a :: rest))
          { id := 1, time := unixSecs t, hijacked := hij, addrId := 1,
            typeId := 1, questionId := 1 }) := rfl
  rw [hread, hrows, sortBy_expRows]

/-- C9 (amended, for writes into a fresh store): a record written with
distinct, nonempty answers `[a1, ..., ak]` reads back as one logical
entry with the same whole-second time, remote address, hijacked flag,
qtype and question, but with the answers ordered by DESCENDING
`rr_answer` id, i.e. as `[ak, ..., a1]` — the reverse of the order
given at write time. -/
theorem C9_amended (t : Int) (addr : List Nat) (hij : Bool) (qtype : Nat)
    (q : String) (answers : List String) (hnd : answers.Nodup)
    (hblank : "" ∉ answers) :
    loggerRead (writeLog emptyDB t addr hij qtype q answers) 1
      = [{ time := unixSecs t, remoteAddr := addr, hijacked := hij,
           qtype := qtype, question := q,
           answers := answers.reverse }] := by
  have hw : writeLog emptyDB t addr hij qtype q answers
      = writtenDB t addr hij qtype q answers :=
    writeLog_empty t addr hij qtype q answers hnd
  rw [hw]
  cases answers with
  | nil => rfl
  | cons a rest =>
      unfold loggerRead
      rw [readLog_writtenDB_cons]
      have hne : (expRows (unixSecs t) addr hij qtype q 1
          (a :: rest)).reverse ≠ [] := by
        intro hrev
        rw [List.reverse_eq_nil_iff] at hrev
        exact absurd hrev (by simp [expRows])
      rw [mergeRows_uniform _ (unixSecs t) addr hij qtype q hne ?_]
      · rw [List.map_reverse, expRows_map_answer]
      · intro r hr
        obtain ⟨h1, h2, h3, h4, h5, h6, h7, _, _, _⟩ :=
          mem_expRows (unixSecs t) addr hij qtype q (a :: rest) 1 r
            (List.mem_reverse.mp hr)
        refine ⟨h1, h2, h3, h4, h5, h6, ?_⟩
        intro hcon
        rw [hcon] at h7
        exact hblank h7

/-- The store after writing one record with the ordered answer list
`["a1.", "a2."]`. -/
def c9DB : DB :=
  writeLog emptyDB (1000 * nsPerSec) [192, 0, 2, 100] true 1
    "example.com." ["a1.example.com.", "a2.example.com."]

/-- C9 counterexample: the record written with answers
`[a1, a2]` reads back with answers `[a2, a1]` — the order by descending
`rr_answer.id` reverses the write-time order, so the claim's "answers
list equal to [a1, ..., ak] in the order given at write time" is false. -/
theorem C9_counterexample :
    loggerRead c9DB 1
      = [{ time := 1000, remoteAddr := [192, 0, 2, 100], hijacked := true,
           qtype := 1, question := "example.com.",
           answers := ["a2.example.com.", "a1.example.com."] }] ∧
    (["a2.example.com.", "a1.example.com."] : List String)
      ≠ ["a1.example.com.", "a2.example.com."] := by
  refine ⟨by rfl, by decide⟩

theorem C9_witness :
    (["x1.", "x2.", "x3."] : List String).Nodup ∧
    ("" ∉ (["x1.", "x2.", "x3."] : List String)) ∧
    loggerRead (writeLog emptyDB (5 * nsPerSec) [10, 0, 0, 1] false 28
        "w.example.org." ["x1.", "x2.", "x3."]) 1
      = [{ time := 5, remoteAddr := [10, 0, 0, 1], hijacked := false,
           qtype := 28, question := "w.example.org.",
           answers := ["x3.", "x2.", "x1."] }] :=
  ⟨by decide, by decide,
   by
     have h := C9_amended (5 * nsPerSec) [10, 0, 0, 1] false 28
       "w.example.org." ["x1.", "x2.", "x3."] (by decide) (by decide)
     rw [h]
     rfl⟩

/-! ## Decimal formatting and parsing (`strconv`) -/

/-- The character for one decimal digit. -/
def digitChar (n : Nat) : Char :=
  if n = 0 then '0' else if n = 1 then '1' else if n = 2 then '2'
  else if n = 3 then '3' else if n = 4 then '4' else if n = 5 then '5'
  else if n = 6 then '6' else if n = 7 then '7' else if n = 8 then '8'
  else '9'

/-- Base-10 digits of a natural number, most significant first
(`strconv.FormatUint`), with fuel for structural recursion. -/
def natDecFuel : Nat → Nat → List Char
  | 0, _ => []
  | f + 1, n =>
      if n < 10 then [digitChar n]
      else natDecFuel f (n / 10) ++ [digitChar (n % 10)]

/-- `strconv.FormatUint(n, 10)` as characters. -/
def natDec (n : Nat) : List Char := natDecFuel (n + 1) n

/-- `strconv.FormatInt(i, 10)` as characters. -/
def intDec (i : Int) : List Char :=
  if i < 0 then '-' :: natDec (-i).toNat else natDec i.toNat

/-- Value of one decimal digit character. -/
def decVal (c : Char) : Option Nat :=
  if c = '0' then some 0 else if c = '1' then some 1
  else if c = '2' then some 2 else if c = '3' then some 3
  else if c = '4' then some 4 else if c = '5' then some 5
  else if c = '6' then some 6 else if c = '7' then some 7
  else if c = '8' then some 8 else if c = '9' then some 9
  else none

/-- Accumulating base-10 parse: fails on any non-digit. -/
def decAccum : List Char → Nat → Option Nat
  | [], acc => some acc
  | c :: cs, acc => (decVal c).bind (fun d => decAccum cs (acc * 10 + d))

/-- Parse a nonempty all-digit string as a natural number. -/
def parseDecNat (cs : List Char) : Option Nat :=
  if cs.isEmpty then none else decAccum cs 0

/-- `strconv.ParseUint(s, 10, 32)`: parse and range-check. -/
def parseUint32 (cs : List Char) : Option Nat :=
  match parseDecNat cs with
  | none => none
  | some n => if n < 2 ^ 32 then some n else none

/-- Sign handling of `strconv.ParseInt`. -/
def parseDecInt (cs : List Char) : Option Int :=
  match cs with
  | [] => none
  | c :: rest =>
      if c = '-' then (parseDecNat rest).map (fun n => -(n : Int))
      else if c = '+' then (parseDecNat rest).map (fun n => (n : Int))
      else (parseDecNat cs).map (fun n => (n : Int))

/-- `strconv.ParseInt(s, 10, 64)`: parse and 64-bit range-check. -/
def parseInt64 (cs : List Char) : Option Int :=
  match parseDecInt cs with
  | none => none
  | some v => if -(2 ^ 63) ≤ v ∧ v < 2 ^ 63 then some v else none

theorem decVal_digitChar (d : Nat) (h : d < 10) :
    decVal (digitChar d) = some d := by
  interval_cases d <;> rfl

theorem decAccum_append (xs ys : List Char) :
    ∀ acc, decAccum (xs ++ ys) acc
      = (decAccum xs acc).bind (fun a => decAccum ys a) := by
  induction xs with
  | nil => intro acc; rfl
  | cons c cs ih =>
      intro acc
      simp only [List.cons_append, decAccum]
      cases decVal c with
      | none => rfl
      | some d =>
          show decAccum (cs ++ ys) (acc * 10 + d)
            = (decAccum cs (acc * 10 + d)).bind (fun a => decAccum ys a)
          exact ih (acc * 10 + d)

theorem natDecFuel_ne_nil : ∀ (fuel n : Nat), 0 < fuel →
    natDecFuel fuel n ≠ [] := by
  intro fuel n hf
  cases fuel with
  | zero => omega
  | succ f =>
      unfold natDecFuel
      split
      · simp
      · simp

theorem decAccum_natDecFuel : ∀ (fuel : Nat), ∀ n < fuel,
    decAccum (natDecFuel fuel n) 0 = some n := by
  intro fuel
  induction fuel with
  | zero => intro n hn; omega
  | succ f ih =>
      intro n hn
      unfold natDecFuel
      by_cases h10 : n < 10
      · rw [if_pos h10]
        simp only [decAccum]
        rw [decVal_digitChar n h10]
        show decAccum [] (0 * 10 + n) = some n
        simp [decAccum]
      · rw [if_neg h10]
        rw [decAccum_append]
        have hrec : n / 10 < f := by omega
        rw [ih (n / 10) hrec]
        show decAccum [digitChar (n % 10)] (n / 10) = some n
        simp only [decAccum]
        rw [decVal_digitChar (n % 10) (Nat.mod_lt n (by omega))]
        show decAccum [] (n / 10 * 10 + n % 10) = some n
        simp only [decAccum]
        congr 1
        omega

theorem parseDecNat_natDec (n : Nat) : parseDecNat (natDec n) = some n := by
  unfold parseDecNat natDec
  rw [if_neg]
  · exact decAccum_natDecFuel (n + 1) n (by omega)
  · simp only [List.isEmpty_iff]
    exact natDecFuel_ne_nil (n + 1) n (by omega)

theorem mem_natDecFuel_digit : ∀ (fuel n : Nat) (c : Char),
    c ∈ natDecFuel fuel n → ∃ d, d < 10 ∧ c = digitChar d := by
  intro fuel
  induction fuel with
  | zero => intro n c h; cases h
  | succ f ih =>
      intro n c h
      unfold natDecFuel at h
      by_cases h10 : n < 10
      · rw [if_pos h10] at h
        simp only [List.mem_singleton] at h
        exact ⟨n, h10, h⟩
      · rw [if_neg h10] at h
        rcases List.mem_append.mp h with h | h
        · exact ih (n / 10) c h
        · simp only [List.mem_singleton] at h
          exact ⟨n % 10, Nat.mod_lt n (by omega), h⟩

theorem digitChar_not_space (d : Nat) (h : d < 10) :
    isSpace (digitChar d) = false := by
  interval_cases d <;> rfl

theorem digitChar_ne_dash (d : Nat) (h : d < 10) :
    digitChar d ≠ '-' := by
  interval_cases d <;> decide

theorem digitChar_ne_plus (d : Nat) (h : d < 10) :
    digitChar d ≠ '+' := by
  interval_cases d <;> decide

theorem natDec_not_space (n : Nat) (c : Char) (h : c ∈ natDec n) :
    isSpace c = false := by
  obtain ⟨d, hd, rfl⟩ := mem_natDecFuel_digit (n + 1) n c h
  exact digitChar_not_space d hd

theorem intDec_not_space (i : Int) (c : Char) (h : c ∈ intDec i) :
    isSpace c = false := by
  unfold intDec at h
  split at h
  · rcases List.mem_cons.mp h with h | h
    · subst h; rfl
    · exact natDec_not_space _ c h
  · exact natDec_not_space _ c h

theorem intDec_ne_nil (i : Int) : intDec i ≠ [] := by
  unfold intDec
  split
  · simp
  · exact natDecFuel_ne_nil _ _ (by omega)

theorem natDec_ne_nil (n : Nat) : natDec n ≠ [] :=
  natDecFuel_ne_nil _ _ (by omega)

theorem parseDecInt_natDec (n : Nat) :
    parseDecInt (natDec n) = some (n : Int) := by
  rcases hcons : natDec n with _ | ⟨c, rest⟩
  · exact absurd hcons (natDec_ne_nil n)
  · have hc : ∃ d, d < 10 ∧ c = digitChar d := by
      apply mem_natDecFuel_digit (n + 1) n c
      show c ∈ natDec n
      rw [hcons]
      exact List.mem_cons_self c rest
    obtain ⟨d, hd, rfl⟩ := hc
    simp only [parseDecInt]
    rw [if_neg (digitChar_ne_dash d hd), if_neg (digitChar_ne_plus d hd)]
    rw [← hcons, parseDecNat_natDec]
    rfl

theorem parseInt64_intDec (i : Int) (hlo : -(2 ^ 63) ≤ i)
    (hhi : i < 2 ^ 63) : parseInt64 (intDec i) = some i := by
  unfold parseInt64
  by_cases hneg : i < 0
  · have hstep : parseDecInt (intDec i) = some i := by
      unfold intDec
      rw [if_pos hneg]
      simp only [parseDecInt]
      rw [if_pos trivial, parseDecNat_natDec]
      show some (-(((-i).toNat : Nat) : Int)) = some i
      congr 1
      have h1 : ((-i).toNat : Int) = -i := Int.toNat_of_nonneg (by omega)
      omega
    rw [hstep]
    show (if -(2 ^ 63) ≤ i ∧ i < 2 ^ 63 then some i else none) = some i
    rw [if_pos ⟨hlo, hhi⟩]
  · have hstep : parseDecInt (intDec i) = some i := by
      unfold intDec
      rw [if_neg hneg]
      rw [parseDecInt_natDec]
      congr 1
      exact Int.toNat_of_nonneg (by omega)
    rw [hstep]
    show (if -(2 ^ 63) ≤ i ∧ i < 2 ^ 63 then some i else none) = some i
    rw [if_pos ⟨hlo, hhi⟩]

/-! ## Hex encoding (`encoding/hex`) -/

/-- Lowercase hex digit character. -/
def hexDigit (n : Nat) : Char :=
  if n = 0 then '0' else if n = 1 then '1' else if n = 2 then '2'
  else if n = 3 then '3' else if n = 4 then '4' else if n = 5 then '5'
  else if n = 6 then '6' else if n = 7 then '7' else if n = 8 then '8'
  else if n = 9 then '9' else if n = 10 then 'a' else if n = 11 then 'b'
  else if n = 12 then 'c' else if n = 13 then 'd' else if n = 14 then 'e'
  else 'f'

/-- `hex.EncodeToString`: two lowercase hex digits per byte. -/
def hexEncodeChars : List Nat → List Char
  | [] => []
  | b :: rest => hexDigit (b / 16) :: hexDigit (b % 16) :: hexEncodeChars rest

/-- Value of a hex digit character (`hex.DecodeString` accepts both
cases). -/
def hexVal (c : Char) : Option Nat :=
  if '0' ≤ c ∧ c ≤ '9' then some (c.toNat - 48)
  else if 'a' ≤ c ∧ c ≤ 'f' then some (c.toNat - 87)
  else if 'A' ≤ c ∧ c ≤ 'F' then some (c.toNat - 55)
  else none

/-- `hex.DecodeString`: pairs of hex digits; odd length fails. -/
def hexDecodeChars : List Char → Option (List Nat)
  | [] => some []
  | [_] => none
  | c1 :: c2 :: rest =>
      match hexVal c1, hexVal c2, hexDecodeChars rest with
      | some h, some l, some bs => some ((h * 16 + l) :: bs)
      | _, _, _ => none

theorem hexVal_hexDigit (d : Nat) (h : d < 16) :
    hexVal (hexDigit d) = some d := by
  interval_cases d <;> rfl

theorem hexDigit_not_space (d : Nat) (h : d < 16) :
    isSpace (hexDigit d) = false := by
  interval_cases d <;> rfl

theorem hexDecode_hexEncode (bytes : List Nat)
    (h : ∀ b ∈ bytes, b < 256) :
    hexDecodeChars (hexEncodeChars bytes) = some bytes := by
  induction bytes with
  | nil => rfl
  | cons b rest ih =>
      have hb : b < 256 := h b (List.mem_cons_self b rest)
      show hexDecodeChars (hexDigit (b / 16) :: hexDigit (b % 16) ::
        hexEncodeChars rest) = some (b :: rest)
      unfold hexDecodeChars
      rw [hexVal_hexDigit (b / 16) (by omega),
        hexVal_hexDigit (b % 16) (by omega),
        ih (fun b' hb' => h b' (List.mem_cons_of_mem b hb'))]
      show some ((b / 16 * 16 + b % 16) :: rest) = some (b :: rest)
      have hbb : b / 16 * 16 + b % 16 = b := by omega
      rw [hbb]

theorem mem_hexEncode_digit : ∀ (bytes : List Nat),
    (∀ b ∈ bytes, b < 256) → ∀ (c : Char),
    c ∈ hexEncodeChars bytes → ∃ d, d < 16 ∧ c = hexDigit d := by
  intro bytes
  induction bytes with
  | nil => intro _ c h; cases h
  | cons b rest ih =>
      intro hbound c h
      have hb : b < 256 := hbound b (List.mem_cons_self b rest)
      rcases List.mem_cons.mp h with h | h
      · exact ⟨b / 16, by omega, h⟩
      · rcases List.mem_cons.mp h with h | h
        · exact ⟨b % 16, by omega, h⟩
        · exact ih (fun b' hb' => hbound b' (List.mem_cons_of_mem b hb'))
            c h

theorem hexEncode_not_space (bytes : List Nat)
    (hbound : ∀ b ∈ bytes, b < 256) (c : Char)
    (h : c ∈ hexEncodeChars bytes) : isSpace c = false := by
  obtain ⟨d, hd, rfl⟩ := mem_hexEncode_digit bytes hbound c h
  exact hexDigit_not_space d hd

/-! ## `strings.Fields` on the pack format -/

theorem fieldsAcc_token (tk : List Char) (h : ∀ c ∈ tk, isSpace c = false) :
    ∀ (acc rest : List Char),
    fieldsAcc acc (tk ++ rest) = fieldsAcc (tk.reverse ++ acc) rest := by
  induction tk with
  | nil => intro acc rest; simp
  | cons c ct ih =>
      intro acc rest
      rw [List.cons_append]
      simp only [fieldsAcc]
      rw [h c (List.mem_cons_self c ct)]
      rw [if_neg (by simp)]
      rw [ih (fun c' hc' => h c' (List.mem_cons_of_mem c hc')) (c :: acc) rest]
      congr 1
      simp

theorem fieldsAcc_space (acc rest : List Char) (hne : acc ≠ []) :
    fieldsAcc acc (' ' :: rest) = acc.reverse :: fieldsAcc [] rest := by
  simp only [fieldsAcc]
  rw [if_pos (show isSpace ' ' = true from rfl), if_neg hne]

theorem fieldsAcc_last (tk : List Char) (h : ∀ c ∈ tk, isSpace c = false)
    (hne : tk ≠ []) : fieldsAcc [] tk = [tk] := by
  have h2 := fieldsAcc_token tk h [] []
  rw [List.append_nil] at h2
  rw [h2]
  simp only [fieldsAcc]
  rw [if_neg (by simpa using hne)]
  simp

/-- `strings.Fields` of `a ++ " " ++ b ++ " " ++ c` for nonempty
whitespace-free tokens. -/
theorem fields_three (a b c : List Char)
    (ha : ∀ x ∈ a, isSpace x = false) (hb : ∀ x ∈ b, isSpace x = false)
    (hc : ∀ x ∈ c, isSpace x = false)
    (hna : a ≠ []) (hnb : b ≠ []) (hnc : c ≠ []) :
    fieldsChars (a ++ ' ' :: (b ++ ' ' :: c)) = [a, b, c] := by
  unfold fieldsChars
  rw [fieldsAcc_token a ha [] (' ' :: (b ++ ' ' :: c))]
  rw [List.append_nil]
  rw [fieldsAcc_space _ _ (by simpa using hna)]
  rw [List.reverse_reverse]
  rw [fieldsAcc_token b hb [] (' ' :: c)]
  rw [List.append_nil]
  rw [fieldsAcc_space _ _ (by simpa using hnb)]
  rw [List.reverse_reverse]
  rw [fieldsAcc_last c hc hnc]

/-! ## DNS wire codec (miekg/dns `Msg.Pack`/`Msg.Unpack`, modelled
without compression, which is the library default) -/

/-- Read exactly `n` bytes. -/
def readN : Nat → List Nat → Option (List Nat × List Nat)
  | 0, l => some ([], l)
  | _ + 1, [] => none
  | n + 1, b :: l =>
      match readN n l with
      | none => none
      | some (xs, r) => some (b :: xs, r)

/-- Big-endian 32-bit bytes. -/
def be32 (v : Nat) : List Nat := be16 (v / 65536) ++ be16 (v % 65536)

/-- Read a big-endian 16-bit value. -/
def read16 : List Nat → Option (Nat × List Nat)
  | b1 :: b0 :: rest => some (b1 * 256 + b0, rest)
  | _ => none

/-- Read a big-endian 32-bit value. -/
def read32 (l : List Nat) : Option (Nat × List Nat) :=
  match read16 l with
  | none => none
  | some (hi, r) =>
      match read16 r with
      | none => none
      | some (lo, r2) => some (hi * 65536 + lo, r2)

/-- Pack the labels of a fully qualified name: each label length-prefixed,
terminated by a zero byte. Fails on an empty or over-long label and on a
name that does not end in a dot. -/
def packLabelsFuel : Nat → List Char → Option (List Nat)
  | 0, _ => none
  | _ + 1, [] => some [0]
  | f + 1, cs =>
      let lab := cs.takeWhile (fun c => c ≠ '.')
      match cs.dropWhile (fun c => c ≠ '.') with
      | '.' :: rest =>
          if lab.length = 0 ∨ 63 < lab.length then none
          else
            match packLabelsFuel f rest with
            | none => none
            | some e => some ((lab.length :: lab.map Char.toNat) ++ e)
      | _ => none

/-- miekg/dns `PackDomainName`: the root name is a single zero byte. -/
def packName (s : String) : Option (List Nat) :=
  if s = "." then some [0]
  else packLabelsFuel (s.toList.length + 1) s.toList

/-- Read length-prefixed labels up to the zero terminator. -/
def readLabelsFuel : Nat → List Nat → Option (List (List Nat) × List Nat)
  | 0, _ => none
  | _ + 1, [] => none
  | f + 1, len :: rest =>
      if len = 0 then some ([], rest)
      else
        match readN len rest with
        | none => none
        | some (lab, r2) =>
            match readLabelsFuel f r2 with
            | none => none
            | some (labs, r3) => some (lab :: labs, r3)

/-- Join decoded labels back into a fully qualified name. -/
def labelsToChars (labs : List (List Nat)) : List Char :=
  labs.foldr (fun lab acc => lab.map Char.ofNat ++ '.' :: acc) []

/-- miekg/dns `UnpackDomainName`: zero labels decode as the root name. -/
def readName (bytes : List Nat) : Option (String × List Nat) :=
  match readLabelsFuel (bytes.length + 1) bytes with
  | none => none
  | some ([], rest) => some (".", rest)
  | some (labs, rest) => some (String.mk (labelsToChars labs), rest)

/-- Well-formedness of FQDN chunks: nonempty labels of at most 63
single-byte characters, each followed by a dot. -/
def wfChunks : Nat → List Char → Bool
  | 0, _ => false
  | _ + 1, [] => true
  | f + 1, cs =>
      let lab := cs.takeWhile (fun c => c ≠ '.')
      match cs.dropWhile (fun c => c ≠ '.') with
      | '.' :: rest =>
          (decide (1 ≤ lab.length) && decide (lab.length ≤ 63) &&
            lab.all (fun c => decide (c.toNat < 256))) && wfChunks f rest
      | _ => false

/-- A name the codec round-trips: the root, or a nonempty FQDN with
well-formed labels. -/
def wfName (s : String) : Bool :=
  s == "." || (s != "" && wfChunks (s.toList.length + 1) s.toList)

/-- Pack one question: name, type, class. -/
def packQuestion (qu : Question) : Option (List Nat) :=
  match packName qu.name with
  | none => none
  | some nm => some (nm ++ (be16 qu.qtype ++ be16 qu.qclass))

/-- Read one question. -/
def readQuestion (bytes : List Nat) : Option (Question × List Nat) :=
  match readName bytes with
  | none => none
  | some (nm, r1) =>
      match read16 r1 with
      | none => none
      | some (qt, r2) =>
          match read16 r2 with
          | none => none
          | some (qc, r3) =>
              some ({ name := nm, qtype := qt, qclass := qc }, r3)

/-- Pack one resource record: name, type, class, TTL, rdlength, rdata. -/
def packRR (rr : RR) : Option (List Nat) :=
  match packName rr.name with
  | none => none
  | some nm =>
      some (nm ++ (be16 rr.rtype ++ (be16 rr.rclass ++ (be32 rr.ttl ++
        (be16 rr.rdata.length ++ rr.rdata)))))

/-- Read one resource record. -/
def readRR (bytes : List Nat) : Option (RR × List Nat) :=
  match readName bytes with
  | none => none
  | some (nm, r1) =>
      match read16 r1 with
      | none => none
      | some (rt, r2) =>
          match read16 r2 with
          | none => none
          | some (rc, r3) =>
              match read32 r3 with
              | none => none
              | some (ttl, r4) =>
                  match read16 r4 with
                  | none => none
                  | some (rdlen, r5) =>
                      match readN rdlen r5 with
                      | none => none
                      | some (rdata, r6) =>
                          some ({ name := nm, rtype := rt, rclass := rc,
                                  ttl := ttl, rdata := rdata }, r6)

/-- Pack a section: concatenation of element encodings. -/
def packList {α : Type} (f : α → Option (List Nat)) : List α →
    Option (List Nat)
  | [] => some []
  | x :: rest =>
      match f x, packList f rest with
      | some a, some b => some (a ++ b)
      | _, _ => none

/-- Read `n` section elements. -/
def readCount {α : Type} (f : List Nat → Option (α × List Nat)) :
    Nat → List Nat → Option (List α × List Nat)
  | 0, l => some ([], l)
  | n + 1, l =>
      match f l with
      | none => none
      | some (x, r) =>
          match readCount f n r with
          | none => none
          | some (xs, r2) => some (x :: xs, r2)

/-- The two header flag bytes written by `Msg.Pack` for the flags this
model carries: QR and RD in the first byte, RA and RCODE in the second
(opcode, AA, TC, Z, AD, CD are zero here). -/
def flagBytes (m : Msg) : List Nat :=
  [(if m.response then 128 else 0) + (if m.recursionDesired then 1 else 0),
   (if m.recursionAvailable then 128 else 0) + m.rcode % 16]

/-- Embeds `Msg.Pack` (without compression): 12-byte header followed by
the question, answer, authority and additional sections. -/
def packMsg (m : Msg) : Option (List Nat) :=
  match packList packQuestion m.question, packList packRR m.answer,
        packList packRR m.ns, packList packRR m.extra with
  | some qs, some ans, some nss, some exs =>
      some (be16 m.id ++ (flagBytes m ++ (be16 m.question.length ++
        (be16 m.answer.length ++ (be16 m.ns.length ++
          (be16 m.extra.length ++ (qs ++ (ans ++ (nss ++ exs)))))))))
  | _, _, _, _ => none

/-- Read the two flag bytes. -/
def readFlags : List Nat → Option ((Nat × Nat) × List Nat)
  | b1 :: b2 :: rest => some ((b1, b2), rest)
  | _ => none

/-- Decode the modelled header fields from the two flag bytes. -/
def mkUnpackedMsg (id0 b1 b2 : Nat) (qs : List Question)
    (ans nss exs : List RR) : Msg :=
  { id := id0, response := decide (128 ≤ b1),
    recursionDesired := b1 % 2 == 1,
    recursionAvailable := decide (128 ≤ b2), rcode := b2 % 16,
    question := qs, answer := ans, ns := nss, extra := exs }

/-- Embeds `Msg.Unpack` for the modelled fields: header, then the four
sections by their counts (trailing bytes are ignored, as the library
does). -/
def unpackMsg (bytes : List Nat) : Option Msg :=
  match read16 bytes with
  | none => none
  | some (id0, r1) =>
      match readFlags r1 with
      | none => none
      | some ((b1, b2), r2) =>
          match read16 r2 with
          | none => none
          | some (qd, r3) =>
              match read16 r3 with
              | none => none
              | some (an, r4) =>
                  match read16 r4 with
                  | none => none
                  | some (nsc, r5) =>
                      match read16 r5 with
                      | none => none
                      | some (ar, r6) =>
                          match readCount readQuestion qd r6 with
                          | none => none
                          | some (qs, r7) =>
                              match readCount readRR an r7 with
                              | none => none
                              | some (ans, r8) =>
                                  match readCount readRR nsc r8 with
                                  | none => none
                                  | some (nss, r9) =>
                                      match readCount readRR ar r9 with
                                      | none => none
                                      | some (exs, _) =>
                                          some (mkUnpackedMsg id0 b1 b2
                                            qs ans nss exs)

/-- Well-formed RR for the codec round trip. -/
def wfRR (rr : RR) : Bool :=
  wfName rr.name && decide (rr.rtype < 65536) &&
  decide (rr.rclass < 65536) && decide (rr.ttl < 4294967296) &&
  decide (rr.rdata.length < 65536) &&
  rr.rdata.all (fun b => decide (b < 256))

/-- Well-formed question for the codec round trip. -/
def wfQuestion (qu : Question) : Bool :=
  wfName qu.name && decide (qu.qtype < 65536) && decide (qu.qclass < 65536)

/-- Well-formed message for the codec round trip. -/
def wfMsg (m : Msg) : Bool :=
  decide (m.id < 65536) && decide (m.rcode < 16) &&
  decide (m.question.length < 65536) && decide (m.answer.length < 65536) &&
  decide (m.ns.length < 65536) && decide (m.extra.length < 65536) &&
  m.question.all wfQuestion && m.answer.all wfRR &&
  m.ns.all wfRR && m.extra.all wfRR

/-! ## Codec round-trip lemmas -/

theorem readN_exact (xs : List Nat) :
    ∀ rest, readN xs.length (xs ++ rest) = some (xs, rest) := by
  induction xs with
  | nil => intro rest; rfl
  | cons b bs ih =>
      intro rest
      show readN (bs.length + 1) (b :: (bs ++ rest)) = some (b :: bs, rest)
      simp only [readN]
      rw [ih rest]

theorem mem_be16_lt (v b : Nat) (h : b ∈ be16 v) : b < 256 := by
  unfold be16 at h
  rcases List.mem_cons.mp h with h | h
  · omega
  · simp only [List.mem_singleton] at h
    omega

theorem mem_be32_lt (v b : Nat) (h : b ∈ be32 v) : b < 256 := by
  unfold be32 at h
  rcases List.mem_append.mp h with h | h
  · exact mem_be16_lt _ b h
  · exact mem_be16_lt _ b h

theorem read16_be16 (v : Nat) (h : v < 65536) (rest : List Nat) :
    read16 (be16 v ++ rest) = some (v, rest) := by
  show read16 (v / 256 % 256 :: v % 256 :: rest) = some (v, rest)
  simp only [read16]
  have h1 : v / 256 % 256 = v / 256 := Nat.mod_eq_of_lt (by omega)
  rw [h1]
  have h2 : v / 256 * 256 + v % 256 = v := by omega
  rw [h2]

theorem read32_be32 (v : Nat) (h : v < 4294967296) (rest : List Nat) :
    read32 (be32 v ++ rest) = some (v, rest) := by
  unfold be32 read32
  rw [List.append_assoc]
  rw [read16_be16 (v / 65536) (by omega)]
  show (match read16 (be16 (v % 65536) ++ rest) with
        | none => none
        | some (lo, r2) => some (v / 65536 * 65536 + lo, r2)) = some (v, rest)
  rw [read16_be16 (v % 65536) (by omega)]
  show some (v / 65536 * 65536 + v % 65536, rest) = some (v, rest)
  have h2 : v / 65536 * 65536 + v % 65536 = v := by omega
  rw [h2]

theorem dropWhile_head_false {α : Type} (p : α → Bool) :
    ∀ (l : List α) (c : α) (r : List α),
    l.dropWhile p = c :: r → p c = false := by
  intro l
  induction l with
  | nil => intro c r h; cases h
  | cons a l' ih =>
      intro c r h
      rw [List.dropWhile_cons] at h
      by_cases hp : p a = true
      · rw [if_pos hp] at h
        exact ih c r h
      · rw [if_neg hp] at h
        cases h
        simpa using hp

theorem name_chunks_roundtrip :
    ∀ (fuel : Nat) (cs : List Char), wfChunks fuel cs = true →
    ∃ enc labs,
      packLabelsFuel fuel cs = some enc ∧
      (∀ b ∈ enc, b < 256) ∧
      1 ≤ enc.length ∧
      (∀ (f2 : Nat) (rest : List Nat), enc.length ≤ f2 →
        readLabelsFuel f2 (enc ++ rest) = some (labs, rest)) ∧
      labelsToChars labs = cs := by
  intro fuel
  induction fuel with
  | zero => intro cs h; simp [wfChunks] at h
  | succ f ih =>
      intro cs h
      cases cs with
      | nil =>
          refine ⟨[0], [], rfl, ?_, by simp, ?_, rfl⟩
          · intro b hb
            simp only [List.mem_singleton] at hb
            omega
          · intro f2 rest hf2
            cases f2 with
            | zero => simp at hf2
            | succ f3 =>
                show readLabelsFuel (f3 + 1) (0 :: rest) = some ([], rest)
                simp only [readLabelsFuel]
                rw [if_pos trivial]
      | cons c ct =>
          simp only [wfChunks] at h
          rcases hd : (c :: ct).dropWhile (fun x => x ≠ '.')
            with _ | ⟨c', rest⟩
          · rw [hd] at h
            cases h
          · have hc' : c' = '.' := by
              have := dropWhile_head_false _ _ _ _ hd
              simpa using this
            subst hc'
            rw [hd] at h
            set lab := (c :: ct).takeWhile (fun x => x ≠ '.') with hlab
            replace h : ((decide (1 ≤ lab.length) &&
                decide (lab.length ≤ 63) &&
                lab.all (fun x => decide (x.toNat < 256))) &&
                wfChunks f rest) = true := h
            rw [Bool.and_eq_true, Bool.and_eq_true, Bool.and_eq_true] at h
            obtain ⟨⟨⟨hl1, hl2⟩, hl3⟩, hrest⟩ := h
            rw [decide_eq_true_iff] at hl1 hl2
            obtain ⟨enc', labs', hpack', hbound', hlen', hread', hchars'⟩ :=
              ih rest hrest
            refine ⟨(lab.length :: lab.map Char.toNat) ++ enc',
              lab.map Char.toNat :: labs', ?_, ?_, by simp, ?_, ?_⟩
            · simp only [packLabelsFuel]
              rw [hd]
              show (if lab.length = 0 ∨ 63 < lab.length then none
                    else
                      match packLabelsFuel f rest with
                      | none => none
                      | some e =>
                          some ((lab.length :: lab.map Char.toNat) ++ e))
                  = some ((lab.length :: lab.map Char.toNat) ++ enc')
              rw [if_neg (by omega)]
              rw [hpack']
            · intro b hb
              rcases List.mem_append.mp hb with hb | hb
              · rcases List.mem_cons.mp hb with hb | hb
                · omega
                · obtain ⟨ch, hch, rfl⟩ := List.mem_map.mp hb
                  have := hl3
                  rw [List.all_eq_true] at this
                  have := this ch hch
                  simpa using this
              · exact hbound' b hb
            · intro f2 rest2 hf2
              have hlenenc : ((lab.length :: lab.map Char.toNat)
                  ++ enc').length = 1 + lab.length + enc'.length := by
                simp [Nat.add_comm]
                omega
              rw [hlenenc] at hf2
              cases f2 with
              | zero => omega
              | succ f3 =>
                  show readLabelsFuel (f3 + 1)
                    (((lab.length :: lab.map Char.toNat) ++ enc') ++ rest2)
                    = _
                  rw [List.cons_append, List.cons_append]
                  simp only [readLabelsFuel]
                  rw [if_neg (by omega)]
                  rw [List.append_assoc]
                  have hmaplen : lab.length = (lab.map Char.toNat).length := by
                    simp
                  rw [hmaplen, readN_exact (lab.map Char.toNat) (enc' ++ rest2)]
                  show (match readLabelsFuel f3 (enc' ++ rest2) with
                        | none => none
                        | some (labs, r3) =>
                            some (lab.map Char.toNat :: labs, r3))
                      = some (lab.map Char.toNat :: labs', rest2)
                  rw [hread' f3 rest2 (by omega)]
            · show (lab.map Char.toNat).map Char.ofNat ++ '.'
                  :: labelsToChars labs' = c :: ct
              rw [hchars']
              rw [List.map_map]
              have hmapid : lab.map (Char.ofNat ∘ Char.toNat) = lab := by
                simp [Function.comp_def, Char.ofNat_toNat]
              rw [hmapid]
              have hsplit : lab ++ (c :: ct).dropWhile (fun x => x ≠ '.')
                  = c :: ct := by
                rw [hlab]
                exact List.takeWhile_append_dropWhile _ _
              rw [hd] at hsplit
              exact hsplit

theorem packName_roundtrip (s : String) (h : wfName s = true) :
    ∃ enc, packName s = some enc ∧ (∀ b ∈ enc, b < 256) ∧
      1 ≤ enc.length ∧
      ∀ rest, readName (enc ++ rest) = some (s, rest) := by
  by_cases hdot : s = "."
  · subst hdot
    refine ⟨[0], by rfl, ?_, by simp, ?_⟩
    · intro b hb
      simp only [List.mem_singleton] at hb
      omega
    · intro rest
      have hr : readLabelsFuel (([0] ++ rest : List Nat).length + 1)
          ([0] ++ rest) = some ([], rest) := by
        show readLabelsFuel (([0] ++ rest : List Nat).length + 1)
          (0 :: rest) = some ([], rest)
        have hlen : ([0] ++ rest : List Nat).length + 1
            = (rest.length + 1) + 1 := by simp
        rw [hlen]
        simp only [readLabelsFuel]
        rw [if_pos trivial]
      unfold readName
      rw [hr]
  · unfold wfName at h
    rw [Bool.or_eq_true] at h
    rcases h with h | h
    · exact absurd (by simpa using h) hdot
    · rw [Bool.and_eq_true] at h
      obtain ⟨hne, hchunks⟩ := h
      have hne' : s ≠ "" := by simpa using hne
      obtain ⟨enc, labs, hpack, hbound, hlen, hread, hchars⟩ :=
        name_chunks_roundtrip (s.toList.length + 1) s.toList hchunks
      refine ⟨enc, ?_, hbound, hlen, ?_⟩
      · unfold packName
        rw [if_neg hdot]
        exact hpack
      · intro rest
        have hr : readLabelsFuel ((enc ++ rest).length + 1) (enc ++ rest)
            = some (labs, rest) := by
          apply hread
          simp only [List.length_append]
          omega
        unfold readName
        rw [hr]
        cases hlabs : labs with
        | nil =>
            rw [hlabs] at hchars
            have : s.toList = [] := by
              rw [← hchars]
              rfl
            exact absurd (by
              cases s with
              | mk d =>
                  simp only [String.toList] at this
                  simp [this]) hne'
        | cons l ls =>
            show some (String.mk (labelsToChars (l :: ls)), rest)
              = some (s, rest)
            rw [← hlabs, hchars]
            rfl

theorem packQuestion_roundtrip (qu : Question) (h : wfQuestion qu = true) :
    ∃ enc, packQuestion qu = some enc ∧ (∀ b ∈ enc, b < 256) ∧
      ∀ rest, readQuestion (enc ++ rest) = some (qu, rest) := by
  unfold wfQuestion at h
  rw [Bool.and_eq_true, Bool.and_eq_true] at h
  obtain ⟨⟨hn, ht⟩, hc⟩ := h
  rw [decide_eq_true_iff] at ht hc
  obtain ⟨nm, hpack, hbound, hlen, hread⟩ := packName_roundtrip qu.name hn
  refine ⟨nm ++ (be16 qu.qtype ++ be16 qu.qclass), ?_, ?_, ?_⟩
  · unfold packQuestion
    rw [hpack]
  · intro b hb
    rcases List.mem_append.mp hb with hb | hb
    · exact hbound b hb
    · rcases List.mem_append.mp hb with hb | hb
      · exact mem_be16_lt _ b hb
      · exact mem_be16_lt _ b hb
  · intro rest
    unfold readQuestion
    rw [List.append_assoc, List.append_assoc]
    simp only [hread, read16_be16 qu.qtype ht, read16_be16 qu.qclass hc]

theorem packRR_roundtrip (rr : RR) (h : wfRR rr = true) :
    ∃ enc, packRR rr = some enc ∧ (∀ b ∈ enc, b < 256) ∧
      ∀ rest, readRR (enc ++ rest) = some (rr, rest) := by
  unfold wfRR at h
  simp only [Bool.and_eq_true, decide_eq_true_iff] at h
  obtain ⟨⟨⟨⟨⟨hn, ht⟩, hc⟩, httl⟩, hlenb⟩, hdata⟩ := h
  obtain ⟨nm, hpack, hbound, hlen, hread⟩ := packName_roundtrip rr.name hn
  refine ⟨nm ++ (be16 rr.rtype ++ (be16 rr.rclass ++ (be32 rr.ttl ++
    (be16 rr.rdata.length ++ rr.rdata)))), ?_, ?_, ?_⟩
  · unfold packRR
    rw [hpack]
  · intro b hb
    rcases List.mem_append.mp hb with hb | hb
    · exact hbound b hb
    rcases List.mem_append.mp hb with hb | hb
    · exact mem_be16_lt _ b hb
    rcases List.mem_append.mp hb with hb | hb
    · exact mem_be16_lt _ b hb
    rcases List.mem_append.mp hb with hb | hb
    · exact mem_be32_lt _ b hb
    rcases List.mem_append.mp hb with hb | hb
    · exact mem_be16_lt _ b hb
    · rw [List.all_eq_true] at hdata
      have := hdata b hb
      simpa using this
  · intro rest
    unfold readRR
    rw [List.append_assoc, List.append_assoc, List.append_assoc,
      List.append_assoc, List.append_assoc]
    simp only [hread, read16_be16 rr.rtype ht, read16_be16 rr.rclass hc,
      read32_be32 rr.ttl httl, read16_be16 rr.rdata.length hlenb,
      readN_exact rr.rdata]

theorem packList_roundtrip {α : Type} (f : α → Option (List Nat))
    (g : List Nat → Option (α × List Nat)) :
    ∀ (xs : List α),
    (∀ x ∈ xs, ∃ enc, f x = some enc ∧ (∀ b ∈ enc, b < 256) ∧
        ∀ rest, g (enc ++ rest) = some (x, rest)) →
    ∃ enc, packList f xs = some enc ∧ (∀ b ∈ enc, b < 256) ∧
      ∀ rest, readCount g xs.length (enc ++ rest) = some (xs, rest) := by
  intro xs
  induction xs with
  | nil => exact fun _ => ⟨[], rfl, by simp, fun rest => rfl⟩
  | cons x xt ih =>
      intro h
      obtain ⟨e1, hf1, hb1, hg1⟩ := h x (List.mem_cons_self x xt)
      obtain ⟨e2, hf2, hb2, hg2⟩ :=
        ih (fun y hy => h y (List.mem_cons_of_mem x hy))
      refine ⟨e1 ++ e2, ?_, ?_, ?_⟩
      · simp only [packList, hf1, hf2]
      · intro b hb
        rcases List.mem_append.mp hb with hb | hb
        · exact hb1 b hb
        · exact hb2 b hb
      · intro rest2
        show readCount g (xt.length + 1) ((e1 ++ e2) ++ rest2)
          = some (x :: xt, rest2)
        rw [List.append_assoc]
        simp only [readCount, hg1, hg2]

theorem mem_flagBytes_lt (m : Msg) (b : Nat) (h : b ∈ flagBytes m) :
    b < 256 := by
  unfold flagBytes at h
  rcases List.mem_cons.mp h with h | h
  · subst h
    cases m.response <;> cases m.recursionDesired <;> simp
  · simp only [List.mem_singleton] at h
    subst h
    cases m.recursionAvailable <;> simp <;> omega

theorem flagBytes_fst_decode (m : Msg) :
    decide (128 ≤ (if m.response then 128 else 0) +
      (if m.recursionDesired then 1 else 0)) = m.response ∧
    ((((if m.response then 128 else 0) +
      (if m.recursionDesired then 1 else 0)) % 2 == 1)
        = m.recursionDesired) := by
  cases m.response <;> cases m.recursionDesired <;> simp

theorem flagBytes_snd_decode (m : Msg) (h : m.rcode < 16) :
    decide (128 ≤ (if m.recursionAvailable then 128 else 0) + m.rcode % 16)
      = m.recursionAvailable ∧
    ((if m.recursionAvailable then 128 else 0) + m.rcode % 16) % 16
      = m.rcode := by
  cases m.recursionAvailable
  · constructor
    · simp
      omega
    · simp
      omega
  · constructor
    · simp
    · simp
      omega

theorem packMsg_roundtrip (m : Msg) (h : wfMsg m = true) :
    ∃ bytes, packMsg m = some bytes ∧ (∀ b ∈ bytes, b < 256) ∧
      bytes ≠ [] ∧ unpackMsg bytes = some m := by
  unfold wfMsg at h
  simp only [Bool.and_eq_true, decide_eq_true_iff, List.all_eq_true] at h
  obtain ⟨⟨⟨⟨⟨⟨⟨⟨⟨hid, hrc⟩, hql⟩, hal⟩, hnl⟩, hel⟩, hq⟩, ha⟩, hn⟩, he⟩ := h
  obtain ⟨qse, hq1, hq2, hq3⟩ := packList_roundtrip packQuestion readQuestion
    m.question (fun x hx => packQuestion_roundtrip x (hq x hx))
  obtain ⟨anse, ha1, ha2, ha3⟩ := packList_roundtrip packRR readRR
    m.answer (fun x hx => packRR_roundtrip x (ha x hx))
  obtain ⟨nse, hn1, hn2, hn3⟩ := packList_roundtrip packRR readRR
    m.ns (fun x hx => packRR_roundtrip x (hn x hx))
  obtain ⟨exe, he1, he2, he3⟩ := packList_roundtrip packRR readRR
    m.extra (fun x hx => packRR_roundtrip x (he x hx))
  refine ⟨be16 m.id ++ (flagBytes m ++ (be16 m.question.length ++
    (be16 m.answer.length ++ (be16 m.ns.length ++
      (be16 m.extra.length ++ (qse ++ (anse ++ (nse ++ exe)))))))),
    ?_, ?_, ?_, ?_⟩
  · simp only [packMsg, hq1, ha1, hn1, he1]
  · intro b hb
    rcases List.mem_append.mp hb with hb | hb
    · exact mem_be16_lt _ b hb
    rcases List.mem_append.mp hb with hb | hb
    · exact mem_flagBytes_lt m b hb
    rcases List.mem_append.mp hb with hb | hb
    · exact mem_be16_lt _ b hb
    rcases List.mem_append.mp hb with hb | hb
    · exact mem_be16_lt _ b hb
    rcases List.mem_append.mp hb with hb | hb
    · exact mem_be16_lt _ b hb
    rcases List.mem_append.mp hb with hb | hb
    · exact mem_be16_lt _ b hb
    rcases List.mem_append.mp hb with hb | hb
    · exact hq2 b hb
    rcases List.mem_append.mp hb with hb | hb
    · exact ha2 b hb
    rcases List.mem_append.mp hb with hb | hb
    · exact hn2 b hb
    · exact he2 b hb
  · simp [be16]
  · unfold unpackMsg
    simp only [read16_be16 m.id hid]
    simp only [flagBytes, List.cons_append, List.nil_append, readFlags]
    have he3' : readCount readRR m.extra.length exe = some (m.extra, []) := by
      have hx := he3 []
      rwa [List.append_nil] at hx
    simp only [read16_be16 m.question.length hql,
      read16_be16 m.answer.length hal, read16_be16 m.ns.length hnl,
      read16_be16 m.extra.length hel, hq3, ha3, hn3, he3']
    simp only [mkUnpackedMsg]
    obtain ⟨hresp, hrd⟩ := flagBytes_fst_decode m
    obtain ⟨hra, hrcod⟩ := flagBytes_snd_decode m hrc
    rw [hresp, hrd, hra, hrcod]

/-! ## `Value.Pack` and `Unpack` (`cache/cache.go`) -/

/-- Embeds `Value.Pack`: key in decimal, a space, the creation time's Unix
seconds in decimal, a space, then the hex-encoded wire bytes of the message;
`none` models the error return when the message fails to pack. -/
def Value.Pack (v : Value) : Option String :=
  match packMsg v.msg with
  | none => none
  | some data =>
      some (String.mk (natDec v.Key ++ ' ' ::
        (intDec (unixSecs v.CreatedAt) ++ ' ' :: hexEncodeChars data)))

/-- Embeds `cache.Unpack`: split on whitespace, require at least three
fields, parse the key as a 32-bit unsigned integer, the seconds as a signed
64-bit integer, hex-decode the wire bytes and unpack the message;
`time.Unix(secs, 0)` is `secs` whole seconds in nanoseconds. -/
def Unpack (value : String) : Option Value :=
  match strFields value with
  | f0 :: f1 :: f2 :: _ =>
      match parseUint32 f0.toList with
      | none => none
      | some key =>
          match parseInt64 f1.toList with
          | none => none
          | some secs =>
              match hexDecodeChars f2.toList with
              | none => none
              | some data =>
                  match unpackMsg data with
                  | none => none
                  | some m =>
                      some { Key := key, CreatedAt := secs * nsPerSec,
                             msg := m }
  | _ => none

/-- A concrete NOERROR response used to exercise the pack format. -/
def c6Msg : Msg :=
  { id := 7, response := true, recursionDesired := true,
    recursionAvailable := false, rcode := 0,
    question := [{ name := "example.", qtype := 1, qclass := 1 }],
    answer := [{ name := "example.", rtype := 1, rclass := 1, ttl := 60,
                 rdata := [192, 0, 2, 1] }],
    ns := [], extra := [] }

/-- A concrete cache value whose creation time has a fractional second. -/
def c6v : Value :=
  { Key := 5, CreatedAt := 1700000000123456789, msg := c6Msg }

/-- C6: for every cache `Value` whose key fits in 32 bits, whose Unix-second
timestamp fits in a signed 64-bit integer, and whose message is well formed
for the wire codec (so that packing succeeds), `Value.Pack` succeeds and
produces exactly the string `<key> <unix seconds> <hex wire bytes>` (decimal
key, decimal whole seconds, lowercase hex of the packed message), and
`Unpack` of that string succeeds and returns the value with its creation
time rounded down to whole seconds and the message re-encoded through
pack/unpack, i.e. unchanged on the modelled fields. -/
theorem C6_pack_unpack (v : Value) (hmsg : wfMsg v.msg = true)
    (hkey : v.Key < 2 ^ 32) (hlo : -(2 ^ 63) ≤ unixSecs v.CreatedAt)
    (hhi : unixSecs v.CreatedAt < 2 ^ 63) :
    ∃ data, packMsg v.msg = some data ∧
      Value.Pack v = some (String.mk (natDec v.Key ++ ' ' ::
        (intDec (unixSecs v.CreatedAt) ++ ' ' :: hexEncodeChars data))) ∧
      Unpack (String.mk (natDec v.Key ++ ' ' ::
        (intDec (unixSecs v.CreatedAt) ++ ' ' :: hexEncodeChars data)))
        = some { Key := v.Key,
                 CreatedAt := unixSecs v.CreatedAt * nsPerSec,
                 msg := v.msg } := by
  obtain ⟨data, hp, hbound, hne, hup⟩ := packMsg_roundtrip v.msg hmsg
  have hhexne : hexEncodeChars data ≠ [] := by
    cases data with
    | nil => exact absurd rfl hne
    | cons b bs => simp [hexEncodeChars]
  refine ⟨data, hp, ?_, ?_⟩
  · simp only [Value.Pack, hp]
  · have hfields : strFields (String.mk (natDec v.Key ++ ' ' ::
        (intDec (unixSecs v.CreatedAt) ++ ' ' :: hexEncodeChars data)))
        = [String.mk (natDec v.Key),
           String.mk (intDec (unixSecs v.CreatedAt)),
           String.mk (hexEncodeChars data)] := by
      unfold strFields
      have hx : (String.mk (natDec v.Key ++ ' ' ::
          (intDec (unixSecs v.CreatedAt) ++
            ' ' :: hexEncodeChars data))).toList
          = natDec v.Key ++ ' ' ::
            (intDec (unixSecs v.CreatedAt) ++
              ' ' :: hexEncodeChars data) := rfl
      rw [hx, fields_three _ _ _
        (fun c h => natDec_not_space _ c h)
        (fun c h => intDec_not_space _ c h)
        (fun c h => hexEncode_not_space data hbound c h)
        (natDec_ne_nil _) (intDec_ne_nil _) hhexne]
      rfl
    have h0 : parseUint32 (String.mk (natDec v.Key)).toList
        = some v.Key := by
      show parseUint32 (natDec v.Key) = some v.Key
      unfold parseUint32
      rw [parseDecNat_natDec]
      show (if v.Key < 2 ^ 32 then some v.Key else none) = some v.Key
      rw [if_pos hkey]
    have h1 : parseInt64 (String.mk (intDec (unixSecs v.CreatedAt))).toList
        = some (unixSecs v.CreatedAt) := by
      show parseInt64 (intDec (unixSecs v.CreatedAt))
        = some (unixSecs v.CreatedAt)
      exact parseInt64_intDec _ hlo hhi
    have h2 : hexDecodeChars (String.mk (hexEncodeChars data)).toList
        = some data := by
      show hexDecodeChars (hexEncodeChars data) = some data
      exact hexDecode_hexEncode data hbound
    simp only [Unpack, hfields, h0, h1, h2, hup]

/-- Closed instance of the pack format round trip on a concrete value. -/
theorem C6_witness :
    (wfMsg c6v.msg = true ∧ c6v.Key < 2 ^ 32 ∧
      -(2 ^ 63) ≤ unixSecs c6v.CreatedAt ∧
      unixSecs c6v.CreatedAt < 2 ^ 63) ∧
    (∃ data, packMsg c6v.msg = some data ∧
      Value.Pack c6v = some (String.mk (natDec c6v.Key ++ ' ' ::
        (intDec (unixSecs c6v.CreatedAt) ++ ' ' :: hexEncodeChars data))) ∧
      Unpack (String.mk (natDec c6v.Key ++ ' ' ::
        (intDec (unixSecs c6v.CreatedAt) ++ ' ' :: hexEncodeChars data)))
        = some { Key := c6v.Key,
                 CreatedAt := unixSecs c6v.CreatedAt * nsPerSec,
                 msg := c6v.msg }) :=
  ⟨⟨by decide, by decide, by decide, by decide⟩,
   C6_pack_unpack c6v (by decide) (by decide) (by decide) (by decide)⟩

end Zdns
